import Mathlib

/-! frr-controller: numeric identifier allocation.

A shallow embedding of `pkg/number_allocator/allocator.go` (type `Range`),
`pkg/range_manager/manager.go` (type `RangeManager`) and the function
`newDeployment` of `controller.go`.

* Go `int` is modelled by `Int`, without wraparound; the interval arithmetic of
  the source (`max-base`, `vni-base`, `base+offset`) is exact whenever `max-base`
  fits a machine word (`fitsInt`), which is the case for the VNI and ASN
  intervals served. On the other pairs the Go subtraction wraps and the
  embedding does not follow the code.
* Go `error` is the type `Error`; a `nil` error is `none`.
* Methods on pointer receivers become functions that return the new state next
  to the Go results.
* `map[string]int` is an association list read with `cacheGet`, written with
  `cacheSet` and `cacheDelete`.
* The `sync.Mutex` of `RangeManager` serialises the calls; the embedding is the
  sequential semantics of one call under the lock.
-/

namespace FrrController

/-- Go `error` values produced by the allocator packages. `ErrFull` and
`ErrAllocated` are the package variables of `allocator.go`; `notInRange` is the
`fmt.Errorf("vni %d is not in range %d-%d", ...)` of `Range.Allocate`;
`outOfBounds` is the bitmap's error for an offset outside `[0,size)`. -/
inductive Error where
  | ErrFull
  | ErrAllocated
  | notInRange (vni base max : Int)
  | outOfBounds (offset : Int) (size : Int)
  deriving DecidableEq, Repr

/-- Modelled from the spec: the Bitmap Allocation Map (package
`number_allocator/allocator`, type behind `allocator.Interface`, built by
`NewContiguousAllocationMap`), which is not among the source files. Spec 4.1: a
fixed-size bit-vector over offsets `[0, size)`, one bit per offset, bit set iff
the offset is allocated. `bits[i]` is the bit of offset `i`; `size` is the
length of `bits`. -/
structure AllocationBitmap where
  bits : List Bool
  deriving DecidableEq, Repr

/-- Modelled from the spec: number of offsets of the Bitmap Allocation Map. -/
def AllocationBitmap.size (b : AllocationBitmap) : Int := (b.bits.length : Int)

/-- Modelled from the spec: constructor `NewContiguousAllocationMap(max, rangeSpec)`
of the missing package `allocator`: an empty map over offsets `[0, max)`; the
label `rangeSpec` is diagnostic only. -/
def NewContiguousAllocationMap (max : Int) (_rangeSpec : String) : AllocationBitmap :=
  { bits := List.replicate max.toNat false }

/-- Modelled from the spec: `Has(offset) bool` of the Bitmap Allocation Map. -/
def AllocationBitmap.Has (b : AllocationBitmap) (offset : Int) : Bool :=
  if offset < 0 then false else b.bits.getD offset.toNat false

/-- Modelled from the spec: `Allocate(offset) → (allocated, err)` of the Bitmap
Allocation Map. Fails with `OutOfBounds` if `offset` is outside `[0,size)`; if
the offset is already used returns `(false, nil)`; otherwise marks it used. -/
def AllocationBitmap.Allocate (b : AllocationBitmap) (offset : Int) :
    AllocationBitmap × Bool × Option Error :=
  if offset < 0 ∨ b.size ≤ offset then (b, false, some (Error.outOfBounds offset b.size))
  else if b.Has offset then (b, false, none)
  else ({ bits := b.bits.set offset.toNat true }, true, none)

/-- Modelled from the spec: the scan of `AllocateNext` of the Bitmap Allocation
Map for the smallest free offset. -/
def firstFree : List Bool → Option Nat
  | [] => none
  | false :: _ => some 0
  | true :: rest => (firstFree rest).map (· + 1)

/-- Modelled from the spec: `AllocateNext() → (offset, ok, err)` of the Bitmap
Allocation Map. Marks the smallest free offset used; `ok = false` with no error
when the map is full. -/
def AllocationBitmap.AllocateNext (b : AllocationBitmap) :
    AllocationBitmap × Int × Bool × Option Error :=
  match firstFree b.bits with
  | none => (b, 0, false, none)
  | some o => ({ bits := b.bits.set o true }, (o : Int), true, none)

/-- Modelled from the spec: `Release(offset)` of the Bitmap Allocation Map.
Marks the offset free; releasing a free or out-of-range offset is a no-op. -/
def AllocationBitmap.Release (b : AllocationBitmap) (offset : Int) : AllocationBitmap :=
  if offset < 0 ∨ b.size ≤ offset then b
  else { bits := b.bits.set offset.toNat false }

/-- Modelled from the spec: `Free() int` of the Bitmap Allocation Map, the
count of free offsets. -/
def AllocationBitmap.Free (b : AllocationBitmap) : Int := (b.bits.count false : Int)

/-! ## `allocator.go` -/

/-- The struct `Range` of `allocator.go`. -/
structure Range where
  base : Int
  max : Int
  alloc : AllocationBitmap
  deriving DecidableEq, Repr

/-- The function `maximum` of `allocator.go`. -/
def maximum (a b : Int) : Int := if a > b then a else b

/-- The function `NewAllocatorRange` of `allocator.go`; the factory returns the
bitmap and an error. -/
def NewAllocatorRange (base max : Int)
    (allocatorFactory : Int → String → AllocationBitmap × Option Error) :
    Range × Option Error :=
  let alloc_max := maximum 0 (max - base)
  let rangeSpec := toString base ++ "-" ++ toString max
  let res := allocatorFactory alloc_max rangeSpec
  ({ base := base, max := max, alloc := res.1 }, res.2)

/-- The function `NewRange` of `allocator.go`. -/
def NewRange (base max : Int) : Range × Option Error :=
  NewAllocatorRange base max
    (fun max rangeSpec => (NewContiguousAllocationMap max rangeSpec, none))

/-- The method `Range.contains`. -/
def Range.contains (r : Range) (vni : Int) : Bool × Int :=
  if vni < r.base ∨ vni > r.max then (false, 0) else (true, vni - r.base)

/-- The method `Range.Allocate`: the new range and the returned error. -/
def Range.Allocate (r : Range) (vni : Int) : Range × Option Error :=
  let c := r.contains vni
  if !c.1 then (r, some (Error.notInRange vni r.base r.max))
  else
    let res := r.alloc.Allocate c.2
    let r' : Range := { r with alloc := res.1 }
    match res.2.2 with
    | some err => (r', some err)
    | none => if !res.2.1 then (r', some Error.ErrAllocated) else (r', none)

/-- The method `Range.Free`. -/
def Range.Free (r : Range) : Int := r.alloc.Free

/-- The method `Range.Used`. -/
def Range.Used (r : Range) : Int := r.max - r.base + 1 - r.alloc.Free

/-- The method `Range.AllocateNext`: the new range, the returned id and error. -/
def Range.AllocateNext (r : Range) : Range × Int × Option Error :=
  let res := r.alloc.AllocateNext
  let r' : Range := { r with alloc := res.1 }
  match res.2.2.2 with
  | some err => (r', 0, some err)
  | none => if !res.2.2.1 then (r', 0, some Error.ErrFull) else (r', r.base + res.2.1, none)

/-- The method `Range.Release`. -/
def Range.Release (r : Range) (vni : Int) : Range :=
  let c := r.contains vni
  if !c.1 then r else { r with alloc := r.alloc.Release c.2 }

/-- The method `Range.Has`. -/
def Range.Has (r : Range) (vni : Int) : Bool :=
  let c := r.contains vni
  if !c.1 then false else r.alloc.Has c.2

/-! ## `manager.go` -/

/-- Read of a Go `map[string]int`: `v, ok := c[name]`. -/
def cacheGet (c : List (String × Int)) (name : String) : Option Int :=
  match c with
  | [] => none
  | (k, v) :: rest => if k = name then some v else cacheGet rest name

/-- Removal from a Go map: `delete(c, name)`. -/
def cacheDelete (c : List (String × Int)) (name : String) : List (String × Int) :=
  c.filter (fun e => decide (e.1 ≠ name))

/-- Write to a Go map: `c[name] = v`. -/
def cacheSet (c : List (String × Int)) (name : String) (v : Int) : List (String × Int) :=
  (name, v) :: cacheDelete c name

/-- The struct `RangeManager` of `manager.go` (the embedded mutex left out). -/
structure RangeManager where
  cache : List (String × Int)
  alloc : Range
  deriving DecidableEq, Repr

/-- The function `NewRangeManager`. -/
def NewRangeManager (min max : Int) : Except Error RangeManager :=
  let res := NewRange min max
  match res.2 with
  | some err => Except.error err
  | none => Except.ok { cache := [], alloc := res.1 }

/-- The method `RangeManager.Allocate`: new state, returned id, returned error. -/
def RangeManager.Allocate (m : RangeManager) (name : String) :
    RangeManager × Int × Option Error :=
  match cacheGet m.cache name with
  | some vni => (m, vni, none)
  | none =>
    let res := m.alloc.AllocateNext
    match res.2.2 with
    | some err => ({ m with alloc := res.1 }, 0, some err)
    | none => ({ cache := cacheSet m.cache name res.2.1, alloc := res.1 }, res.2.1, none)

/-- The method `RangeManager.Release`. -/
def RangeManager.Release (m : RangeManager) (name : String) : RangeManager :=
  match cacheGet m.cache name with
  | some vni => { cache := cacheDelete m.cache name, alloc := m.alloc.Release vni }
  | none => m

/-- The method `RangeManager.Reserve`: new state and returned error. -/
def RangeManager.Reserve (m : RangeManager) (name : String) (vni : Int) :
    RangeManager × Option Error :=
  match cacheGet m.cache name with
  | some _ => (m, none)
  | none =>
    let res := m.alloc.Allocate vni
    match res.2 with
    | some err => ({ m with alloc := res.1 }, some err)
    | none => ({ cache := cacheSet m.cache name vni, alloc := res.1 }, none)

/-- One call on a `RangeManager`. -/
inductive Op where
  | allocate (name : String)
  | release (name : String)
  | reserve (name : String) (vni : Int)
  deriving DecidableEq, Repr

/-- The state after one call. -/
def step (m : RangeManager) : Op → RangeManager
  | Op.allocate name => (m.Allocate name).1
  | Op.release name => m.Release name
  | Op.reserve name vni => (m.Reserve name vni).1

/-- The state after a finite sequence of calls. -/
def run (m : RangeManager) (ops : List Op) : RangeManager := ops.foldl step m

/-- States reachable from `NewRangeManager(base, max)` by `Allocate`, `Release`
and `Reserve` calls. -/
def Reachable (base max : Int) (m : RangeManager) : Prop :=
  ∃ m0 ops, NewRangeManager base max = Except.ok m0 ∧ run m0 ops = m

/-- No two distinct names are bound to the same id. -/
def BindingInjective (c : List (String × Int)) : Prop :=
  ∀ n1 n2 id, cacheGet c n1 = some id → cacheGet c n2 = some id → n1 = n2

/-- The invariant of a manager over the interval `(base, max)`: the interval is
the configured one, the bitmap has the size it was built with, every bound id
is allocated in the range, and the binding table is injective. -/
def Inv (base max : Int) (m : RangeManager) : Prop :=
  m.alloc.base = base ∧ m.alloc.max = max ∧
  m.alloc.alloc.size = maximum 0 (max - base) ∧
  (∀ n id, cacheGet m.cache n = some id → m.alloc.Has id = true) ∧
  BindingInjective m.cache

/-- The state in which `name` has been bound to the id of offset `o` and that
offset marked used: the common effect of a successful `Allocate` or `Reserve`
of an unbound name. -/
def bindAt (m : RangeManager) (name : String) (o : Nat) : RangeManager :=
  { cache := cacheSet m.cache name (m.alloc.base + (o : Int)),
    alloc := { m.alloc with alloc := { bits := m.alloc.alloc.bits.set o true } } }

/-! ## Concrete managers used as worked examples -/

/-- The manager returned by `NewRangeManager(0, 10)`. -/
def fresh_0_10 : RangeManager :=
  { cache := [], alloc := { base := 0, max := 10, alloc := { bits := List.replicate 10 false } } }

/-- The manager returned by `NewRangeManager(100, 100)`. -/
def fresh_100_100 : RangeManager :=
  { cache := [], alloc := { base := 100, max := 100, alloc := { bits := [] } } }

/-- The manager over `(0, 10)` after `Allocate("a")`. -/
def after_a : RangeManager := run fresh_0_10 [Op.allocate "a"]

/-- The manager over `(0, 10)` after `Allocate("a")` and `Allocate("b")`. -/
def after_a_b : RangeManager := run fresh_0_10 [Op.allocate "a", Op.allocate "b"]

/-! ## Enumeration and sequences of calls on a `Range` -/

/-- Modelled from the spec: the used offsets of a bit list in ascending order,
the first bit standing for offset `start`; the enumeration behind `ForEach` of
the Bitmap Allocation Map. -/
def usedOffsets : List Bool → Nat → List Int
  | [], _ => []
  | b :: rest, start =>
    if b then (start : Int) :: usedOffsets rest (start + 1) else usedOffsets rest (start + 1)

/-- Modelled from the spec: `ForEach(fn)` of the Bitmap Allocation Map, which
enumerates the used offsets ascending. The callback acts on an outside state
`σ`, threaded through the calls. -/
def AllocationBitmap.ForEach {σ : Type} (b : AllocationBitmap) (fn : Int → σ → σ) (s : σ) : σ :=
  (usedOffsets b.bits 0).foldl (fun acc offset => fn offset acc) s

/-- The method `Range.ForEach`; the error returned by `fn` is discarded by the
source, so the callback is modelled by its effect on an outside state `σ`. -/
def Range.ForEach {σ : Type} (r : Range) (fn : Int → σ → σ) (s : σ) : σ :=
  r.alloc.ForEach (fun offset acc => fn (r.base + offset) acc) s

/-- The values `Range.ForEach` passes to its callback, in the order of the
calls: the run of `ForEach` with a callback that records its argument. -/
def Range.calls (r : Range) : List Int :=
  r.ForEach (fun vni acc => acc ++ [vni]) []

/-- One call on a `Range` that may change it. -/
inductive RangeOp where
  | allocate (vni : Int)
  | allocateNext
  | release (vni : Int)
  deriving DecidableEq, Repr

/-- The range after one call. -/
def Range.step (r : Range) : RangeOp → Range
  | RangeOp.allocate vni => (r.Allocate vni).1
  | RangeOp.allocateNext => r.AllocateNext.1
  | RangeOp.release vni => r.Release vni

/-- The range after a finite sequence of calls. -/
def Range.run (r : Range) (ops : List RangeOp) : Range := ops.foldl Range.step r

/-- Range states reachable from `NewRange(base, max)` by `Allocate`,
`AllocateNext` and `Release` calls. -/
def RangeReachable (base max : Int) (r : Range) : Prop :=
  ∃ r0 ops, NewRange base max = (r0, none) ∧ Range.run r0 ops = r

/-- The number of ids of `[base, max]` for which `Has` is true. -/
def Range.allocatedCount (r : Range) : Nat :=
  ((List.range (r.max - r.base + 1).toNat).filter (fun i => r.Has (r.base + (i : Int)))).length

/-- The results of `n` successive `AllocateNext` calls, in order, and the range
they leave. -/
def Range.allocateNextTimes (r : Range) : Nat → List (Int × Option Error) × Range
  | 0 => ([], r)
  | n + 1 =>
    let res := r.AllocateNext
    let tail := Range.allocateNextTimes res.1 n
    ((res.2.1, res.2.2) :: tail.1, tail.2)

/-- The range returned by `NewRange(0, 10)`. -/
def range_0_10 : Range :=
  { base := 0, max := 10, alloc := { bits := List.replicate 10 false } }

/-- The range returned by `NewRange(100, 100)`. -/
def range_100_100 : Range := { base := 100, max := 100, alloc := { bits := [] } }

/-- The range returned by `NewRange(4096, 4098)`. -/
def range_4096_4098 : Range :=
  { base := 4096, max := 4098, alloc := { bits := [false, false] } }

/-- The range over `(0, 10)` after `AllocateNext()`, `Allocate(5)`, `Allocate(3)`,
`Release(0)` and `Allocate(9)`. -/
def range_0_10_used : Range :=
  range_0_10.run [RangeOp.allocateNext, RangeOp.allocate 5, RangeOp.allocate 3,
    RangeOp.release 0, RangeOp.allocate 9]

/-- The manager returned by `NewRangeManager(5, 3)`. -/
def fresh_5_3 : RangeManager :=
  { cache := [], alloc := { base := 5, max := 3, alloc := { bits := [] } } }

/-- The binding table and the bitmap agree: no name occurs twice in the table,
every allocated id is bound to some name, and there are as many bindings as
used offsets. -/
def Consistent (m : RangeManager) : Prop :=
  (m.cache.map Prod.fst).Nodup ∧
  (∀ id, m.alloc.Has id = true → ∃ n, cacheGet m.cache n = some id) ∧
  m.cache.length = m.alloc.alloc.bits.count true

/-- The integers a Go `int` of 64 bits holds: on these an arithmetic result of
the source is the mathematical one, with no wraparound. -/
def fitsInt (x : Int) : Prop := -9223372036854775808 ≤ x ∧ x ≤ 9223372036854775807

/-- The manager over `(base, max)` with no binding and a bitmap of no offsets. -/
def emptyManager (base max : Int) : RangeManager :=
  { cache := [], alloc := { base := base, max := max, alloc := { bits := [] } } }

/-- The name a call on a `RangeManager` is about. -/
def Op.name : Op → String
  | Op.allocate name => name
  | Op.release name => name
  | Op.reserve name _ => name

/-! ## `controller.go`: the Deployment built for a Frr resource -/

/-- The struct `FrrSpec` of `types.go`, with the field `InitConfigImage` that
`newDeployment` reads; `Replicas` is a pointer, `NodeSelector` is kept by its
`MatchLabels`. -/
structure FrrSpec where
  DeploymentName : String
  Replicas : Option Int
  Image : String
  InitConfigImage : String
  ASNumber : Int
  Neighbors : List String
  NodeSelector : List (String × String)
  deriving DecidableEq, Repr

/-- The struct `Frr` of `types.go`: the object's name and namespace and its spec. -/
structure Frr where
  Name : String
  Namespace : String
  Spec : FrrSpec
  deriving DecidableEq, Repr

/-- The Kubernetes `corev1.EnvVar`; `ValueFrom` is kept by the `APIVersion` and
`FieldPath` of its `FieldRef`. -/
structure EnvVar where
  Name : String
  Value : String
  ValueFrom : Option (String × String)
  deriving DecidableEq, Repr

/-- The Kubernetes `corev1.VolumeMount`. -/
structure VolumeMount where
  Name : String
  MountPath : String
  ReadOnly : Bool
  deriving DecidableEq, Repr

/-- The Kubernetes `corev1.Volume`: an `EmptyDir` volume has no path, a
`HostPath` volume has one. -/
structure Volume where
  Name : String
  HostPath : Option String
  deriving DecidableEq, Repr

/-- The Kubernetes `corev1.SecurityContext`, by the fields `newDeployment` sets. -/
structure SecurityContext where
  RunAsUser : Option Int
  RunAsGroup : Option Int
  CapabilitiesAdd : List String
  deriving DecidableEq, Repr

/-- The Kubernetes `corev1.Container`, by the fields `newDeployment` sets. -/
structure Container where
  Name : String
  Image : String
  ImagePullPolicy : String
  Env : List EnvVar
  VolumeMounts : List VolumeMount
  Command : List String
  Args : List String
  SecurityContext : SecurityContext
  deriving DecidableEq, Repr

/-- The Kubernetes `appsv1.Deployment`, by the fields `newDeployment` sets; the
owner reference is kept by the kind and name of the owner. -/
structure Deployment where
  Name : String
  Namespace : String
  OwnerReferences : List (String × String)
  Replicas : Option Int
  SelectorMatchLabels : List (String × String)
  TemplateLabels : List (String × String)
  HostNetwork : Bool
  Volumes : List Volume
  InitContainers : List Container
  Containers : List Container
  NodeSelector : List (String × String)
  deriving DecidableEq, Repr

/-- The package variable `frrUID` of `controller.go`. -/
def frrUID : Int := 100

/-- The package variable `frrGID` of `controller.go`. -/
def frrGID : Int := 101

/-- Go's `fmt.Sprintf("%d", n)` on an `int`: the decimal rendering. -/
def sprintfD (n : Int) : String := toString n

/-- The function `newDeployment` of `controller.go`. -/
def newDeployment (frr : Frr) (_asn vni : Int) : Deployment :=
  let labels : List (String × String) := [("app", "frr"), ("controller", frr.Name)]
  let frrContainerEnv : List EnvVar :=
    [ { Name := "ASNUMBER", Value := sprintfD frr.Spec.ASNumber, ValueFrom := none },
      { Name := "NEIGHBORS", Value := String.intercalate "," frr.Spec.Neighbors,
        ValueFrom := none },
      { Name := "VNI", Value := sprintfD vni, ValueFrom := none },
      { Name := "TINT_SUBREAPER", Value := "true", ValueFrom := none },
      { Name := "VTEP_LOCAL", Value := "", ValueFrom := some ("v1", "status.podIP") } ]
  let frrContainerSecurityContext : SecurityContext :=
    { RunAsUser := none, RunAsGroup := none, CapabilitiesAdd := ["NET_ADMIN", "SYS_ADMIN"] }
  let volumes : List Volume := [ { Name := "frr-startup", HostPath := none } ]
  let ovsVols : List Volume :=
    [ { Name := "host-var-run-ovs", HostPath := some "/var/run/openvswitch" },
      { Name := "host-run-ovs", HostPath := some "/run/openvswitch" },
      { Name := "host-modules", HostPath := some "/lib/modules" } ]
  let initContainerVolumeMounts : List VolumeMount :=
    [ { Name := "frr-startup", MountPath := "/tmp/frr", ReadOnly := false } ]
  let frrContainerVolumeMounts : List VolumeMount :=
    [ { Name := "host-var-run-ovs", MountPath := "/var/run/openvswitch", ReadOnly := false },
      { Name := "host-run-ovs", MountPath := "/run/openvswitch", ReadOnly := false },
      { Name := "host-modules", MountPath := "/lib/modules", ReadOnly := true } ]
      ++ initContainerVolumeMounts
  { Name := frr.Spec.DeploymentName,
    Namespace := frr.Namespace,
    OwnerReferences := [("Frr", frr.Name)],
    Replicas := frr.Spec.Replicas,
    SelectorMatchLabels := labels,
    TemplateLabels := labels,
    HostNetwork := true,
    Volumes := volumes ++ ovsVols,
    InitContainers :=
      [ { Name := "frr-conf-init",
          Image := frr.Spec.InitConfigImage,
          ImagePullPolicy := "IfNotPresent",
          Env := frrContainerEnv,
          VolumeMounts := initContainerVolumeMounts,
          Command := [],
          Args := ["/tmp/frr/frr.conf"],
          SecurityContext :=
            { RunAsUser := some frrUID, RunAsGroup := some frrGID, CapabilitiesAdd := [] } } ],
    Containers :=
      [ { Name := "frr",
          Image := frr.Spec.Image,
          ImagePullPolicy := "IfNotPresent",
          Env := frrContainerEnv,
          VolumeMounts := frrContainerVolumeMounts,
          Command := ["/bin/sh"],
          Args := ["-c",
            "/sbin/tini -- cp /tmp/frr/frr.conf /etc/frr/ && /usr/lib/frr/docker-start"],
          SecurityContext := frrContainerSecurityContext } ],
    NodeSelector := frr.Spec.NodeSelector }

/-- The value of the environment variable `name` in a container environment:
the `Value` of the first entry of that name. -/
def envValue (env : List EnvVar) (name : String) : Option String :=
  match env with
  | [] => none
  | e :: rest => if e.Name = name then some e.Value else envValue rest name

/-- The environments of all containers of a Deployment, init containers first. -/
def Deployment.envs (d : Deployment) : List (List EnvVar) :=
  (d.InitContainers ++ d.Containers).map (fun c => c.Env)

/-- A Frr resource whose spec asks for AS number 65000. -/
def frr_example : Frr :=
  { Name := "frr-a", Namespace := "default",
    Spec := { DeploymentName := "frr-a", Replicas := some 1, Image := "frr",
              InitConfigImage := "frr-init", ASNumber := 65000, Neighbors := ["10.0.0.1"],
              NodeSelector := [] } }

/-! ## The binding table -/

theorem cacheGet_cacheDelete_self (c : List (String × Int)) (n : String) :
    cacheGet (cacheDelete c n) n = none := by
  induction c with
  | nil => rfl
  | cons e rest ih =>
    obtain ⟨k, v⟩ := e
    by_cases h : k = n
    · simpa [cacheDelete, List.filter_cons, h] using ih
    · have : cacheDelete ((k, v) :: rest) n = (k, v) :: cacheDelete rest n := by
        simp [cacheDelete, List.filter_cons, h]
      rw [this]
      simp [cacheGet, h, ih]

theorem cacheGet_cacheDelete_ne (c : List (String × Int)) (n k : String) (hk : k ≠ n) :
    cacheGet (cacheDelete c n) k = cacheGet c k := by
  induction c with
  | nil => rfl
  | cons e rest ih =>
    obtain ⟨k', v⟩ := e
    by_cases h : k' = n
    · have h1 : cacheDelete ((k', v) :: rest) n = cacheDelete rest n := by
        simp [cacheDelete, List.filter_cons, h]
      have h2 : k' ≠ k := by rw [h]; exact fun e => hk e.symm
      rw [h1, ih]
      simp [cacheGet, h2]
    · have h1 : cacheDelete ((k', v) :: rest) n = (k', v) :: cacheDelete rest n := by
        simp [cacheDelete, List.filter_cons, h]
      rw [h1]
      simp [cacheGet, ih]

theorem cacheDelete_of_none (c : List (String × Int)) (n : String)
    (h : cacheGet c n = none) : cacheDelete c n = c := by
  induction c with
  | nil => rfl
  | cons e rest ih =>
    obtain ⟨k, v⟩ := e
    by_cases hk : k = n
    · simp [cacheGet, hk] at h
    · simp only [cacheGet, hk, if_false] at h
      have h1 : cacheDelete ((k, v) :: rest) n = (k, v) :: cacheDelete rest n := by
        simp [cacheDelete, List.filter_cons, hk]
      rw [h1, ih h]

theorem cacheGet_cacheSet_self (c : List (String × Int)) (n : String) (v : Int) :
    cacheGet (cacheSet c n v) n = some v := by
  simp [cacheSet, cacheGet]

theorem cacheGet_cacheSet_ne (c : List (String × Int)) (n k : String) (v : Int) (hk : k ≠ n) :
    cacheGet (cacheSet c n v) k = cacheGet c k := by
  have h : n ≠ k := fun e => hk e.symm
  simp [cacheSet, cacheGet, h, cacheGet_cacheDelete_ne c n k hk]

/-! ## The bit list -/

theorem firstFree_some (l : List Bool) (o : Nat) (h : firstFree l = some o) :
    o < l.length ∧ l.getD o false = false ∧ ∀ j, j < o → l.getD j false = true := by
  induction l generalizing o with
  | nil => simp [firstFree] at h
  | cons b rest ih =>
    cases b with
    | false =>
      simp only [firstFree, Option.some.injEq] at h
      subst h
      simp
    | true =>
      simp only [firstFree, Option.map_eq_some'] at h
      obtain ⟨o', ho', rfl⟩ := h
      obtain ⟨h1, h2, h3⟩ := ih o' ho'
      refine ⟨by simp; omega, by simpa using h2, ?_⟩
      intro j hj
      cases j with
      | zero => simp
      | succ j => simpa using h3 j (by omega)

theorem firstFree_none (l : List Bool) (h : firstFree l = none) : l.count false = 0 := by
  induction l with
  | nil => rfl
  | cons b rest ih =>
    cases b with
    | false => simp [firstFree] at h
    | true =>
      simp only [firstFree, Option.map_eq_none'] at h
      simpa using ih h

theorem firstFree_isSome_of_count (l : List Bool) (h : l.count false ≠ 0) :
    ∃ o, firstFree l = some o := by
  cases hf : firstFree l with
  | none => exact absurd (firstFree_none l hf) h
  | some o => exact ⟨o, rfl⟩

theorem count_set_true (l : List Bool) (o : Nat) (ho : o < l.length)
    (hb : l.getD o false = false) :
    (l.set o true).count false + 1 = l.count false := by
  induction l generalizing o with
  | nil => simp at ho
  | cons b rest ih =>
    cases o with
    | zero =>
      simp at hb
      subst hb
      simp
    | succ o =>
      have := ih o (by simpa using ho) (by simpa using hb)
      cases b <;> simp [List.count_cons] <;> omega

theorem count_set_false (l : List Bool) (o : Nat) (ho : o < l.length)
    (hb : l.getD o false = true) :
    (l.set o false).count false = l.count false + 1 := by
  induction l generalizing o with
  | nil => simp at ho
  | cons b rest ih =>
    cases o with
    | zero =>
      simp at hb
      subst hb
      simp
    | succ o =>
      have := ih o (by simpa using ho) (by simpa using hb)
      cases b <;> simp [List.count_cons] <;> omega

theorem set_set_restore (l : List Bool) (o : Nat) (hb : l.getD o false = false) :
    (l.set o true).set o false = l := by
  induction l generalizing o with
  | nil => simp
  | cons b rest ih =>
    cases o with
    | zero =>
      simp at hb
      subst hb
      simp
    | succ o =>
      simp [ih o (by simpa using hb)]

theorem getD_set_self (l : List Bool) (o : Nat) (v : Bool) (ho : o < l.length) :
    (l.set o v).getD o false = v := by
  simp [List.getD_eq_getElem?_getD, List.getElem?_set, ho]

theorem getD_set_ne (l : List Bool) (o j : Nat) (v : Bool) (hj : o ≠ j) :
    (l.set o v).getD j false = l.getD j false := by
  simp [List.getD_eq_getElem?_getD, List.getElem?_set, hj]

/-! ## The calls, case by case -/

theorem Range.Has_iff (r : Range) (id : Int) :
    r.Has id = true ↔
      r.base ≤ id ∧ id ≤ r.max ∧ r.alloc.bits.getD (id - r.base).toNat false = true := by
  unfold Range.Has Range.contains AllocationBitmap.Has
  by_cases h : id < r.base ∨ id > r.max
  · simp only [h, if_true]
    constructor
    · intro h'; simp at h'
    · rintro ⟨h1, h2, _⟩; omega
  · have h0 : ¬ (id - r.base < 0) := by omega
    simp only [h, if_false, h0]
    constructor
    · intro h'; exact ⟨by omega, by omega, by simpa using h'⟩
    · rintro ⟨_, _, h3⟩; simpa using h3

theorem Range.AllocateNext_none (r : Range) (h : firstFree r.alloc.bits = none) :
    r.AllocateNext = (r, 0, some Error.ErrFull) := by
  simp [Range.AllocateNext, AllocationBitmap.AllocateNext, h]

theorem Range.AllocateNext_some (r : Range) (o : Nat) (h : firstFree r.alloc.bits = some o) :
    r.AllocateNext =
      ({ r with alloc := { bits := r.alloc.bits.set o true } }, r.base + (o : Int), none) := by
  simp [Range.AllocateNext, AllocationBitmap.AllocateNext, h]

theorem Range.Allocate_notInRange (r : Range) (vni : Int) (h : vni < r.base ∨ vni > r.max) :
    r.Allocate vni = (r, some (Error.notInRange vni r.base r.max)) := by
  simp [Range.Allocate, Range.contains, h]

theorem Range.Allocate_outOfBounds (r : Range) (vni : Int) (h1 : r.base ≤ vni)
    (h2 : vni ≤ r.max) (h3 : r.alloc.size ≤ vni - r.base) :
    r.Allocate vni = (r, some (Error.outOfBounds (vni - r.base) r.alloc.size)) := by
  have h : ¬ (vni < r.base ∨ vni > r.max) := by omega
  simp [Range.Allocate, Range.contains, h, AllocationBitmap.Allocate, h3]

theorem Range.contains_in (r : Range) (vni : Int) (h1 : r.base ≤ vni) (h2 : vni ≤ r.max) :
    r.contains vni = (true, vni - r.base) := by
  have hc : ¬ (vni < r.base ∨ vni > r.max) := by omega
  unfold Range.contains
  rw [if_neg hc]

theorem bitmap_Has_eq (b : AllocationBitmap) (offset : Int) (h : 0 ≤ offset) :
    b.Has offset = b.bits.getD offset.toNat false := by
  have h5 : ¬ (offset < 0) := by omega
  unfold AllocationBitmap.Has
  rw [if_neg h5]

theorem bitmap_Allocate_used (b : AllocationBitmap) (offset : Int)
    (h0 : 0 ≤ offset) (h1 : offset < b.size) (hb : b.bits.getD offset.toNat false = true) :
    b.Allocate offset = (b, false, none) := by
  have h4 : ¬ (offset < 0 ∨ b.size ≤ offset) := by omega
  have h5 : b.Has offset = true := by rw [bitmap_Has_eq b offset h0]; exact hb
  unfold AllocationBitmap.Allocate
  rw [if_neg h4, if_pos h5]

theorem bitmap_Allocate_free (b : AllocationBitmap) (offset : Int)
    (h0 : 0 ≤ offset) (h1 : offset < b.size) (hb : b.bits.getD offset.toNat false = false) :
    b.Allocate offset = ({ bits := b.bits.set offset.toNat true }, true, none) := by
  have h4 : ¬ (offset < 0 ∨ b.size ≤ offset) := by omega
  have h5 : ¬ (b.Has offset = true) := by
    rw [bitmap_Has_eq b offset h0, hb]; decide
  unfold AllocationBitmap.Allocate
  rw [if_neg h4, if_neg h5]

theorem bitmap_Release_in (b : AllocationBitmap) (offset : Int)
    (h0 : 0 ≤ offset) (h1 : offset < b.size) :
    b.Release offset = { bits := b.bits.set offset.toNat false } := by
  have h4 : ¬ (offset < 0 ∨ b.size ≤ offset) := by omega
  unfold AllocationBitmap.Release
  rw [if_neg h4]

theorem Range.Allocate_used (r : Range) (vni : Int) (h : r.Has vni = true)
    (h3 : vni - r.base < r.alloc.size) :
    r.Allocate vni = (r, some Error.ErrAllocated) := by
  obtain ⟨h1, h2, hb⟩ := (Range.Has_iff r vni).1 h
  unfold Range.Allocate
  simp only [Range.contains_in r vni h1 h2,
    bitmap_Allocate_used r.alloc (vni - r.base) (by omega) h3 hb]
  rfl

theorem Range.Allocate_free (r : Range) (vni : Int) (h1 : r.base ≤ vni)
    (h2 : vni ≤ r.max) (h3 : vni - r.base < r.alloc.size) (h : r.Has vni = false) :
    r.Allocate vni =
      ({ r with alloc := { bits := r.alloc.bits.set (vni - r.base).toNat true } }, none) := by
  have hb : r.alloc.bits.getD (vni - r.base).toNat false = false := by
    cases hb : r.alloc.bits.getD (vni - r.base).toNat false with
    | false => rfl
    | true =>
      have := (Range.Has_iff r vni).2 ⟨h1, h2, hb⟩
      rw [h] at this
      exact absurd this (by decide)
  unfold Range.Allocate
  simp only [Range.contains_in r vni h1 h2,
    bitmap_Allocate_free r.alloc (vni - r.base) (by omega) h3 hb]
  rfl

theorem Range.Release_in (r : Range) (vni : Int) (h1 : r.base ≤ vni) (h2 : vni ≤ r.max)
    (h3 : vni - r.base < r.alloc.size) :
    r.Release vni = { r with alloc := { bits := r.alloc.bits.set (vni - r.base).toNat false } } := by
  unfold Range.Release
  simp only [Range.contains_in r vni h1 h2,
    bitmap_Release_in r.alloc (vni - r.base) (by omega) h3]
  rfl

theorem Range.Release_out (r : Range) (vni : Int) (h : vni < r.base ∨ vni > r.max) :
    r.Release vni = r := by
  simp [Range.Release, Range.contains, h]

theorem Allocate_bound (m : RangeManager) (name : String) (v : Int)
    (h : cacheGet m.cache name = some v) : m.Allocate name = (m, v, none) := by
  simp [RangeManager.Allocate, h]

theorem Allocate_full (m : RangeManager) (name : String)
    (h : cacheGet m.cache name = none) (hf : firstFree m.alloc.alloc.bits = none) :
    m.Allocate name = (m, 0, some Error.ErrFull) := by
  simp [RangeManager.Allocate, h, Range.AllocateNext_none m.alloc hf]

theorem Allocate_fresh (m : RangeManager) (name : String) (o : Nat)
    (h : cacheGet m.cache name = none) (hf : firstFree m.alloc.alloc.bits = some o) :
    m.Allocate name = (bindAt m name o, m.alloc.base + (o : Int), none) := by
  simp [RangeManager.Allocate, h, Range.AllocateNext_some m.alloc o hf, bindAt]

theorem Reserve_bound (m : RangeManager) (name : String) (vni v : Int)
    (h : cacheGet m.cache name = some v) : m.Reserve name vni = (m, none) := by
  simp [RangeManager.Reserve, h]

theorem Reserve_error (m : RangeManager) (name : String) (vni : Int) (e : Error)
    (h : cacheGet m.cache name = none) (he : m.alloc.Allocate vni = (m.alloc, some e)) :
    m.Reserve name vni = (m, some e) := by
  simp [RangeManager.Reserve, h, he]

theorem Reserve_free (m : RangeManager) (name : String) (vni : Int)
    (h : cacheGet m.cache name = none) (h1 : m.alloc.base ≤ vni) (h2 : vni ≤ m.alloc.max)
    (h3 : vni - m.alloc.base < m.alloc.alloc.size) (hh : m.alloc.Has vni = false) :
    m.Reserve name vni = (bindAt m name (vni - m.alloc.base).toNat, none) := by
  have e : m.alloc.base + ((vni - m.alloc.base).toNat : Int) = vni := by
    rw [Int.toNat_of_nonneg (by omega)]; omega
  unfold RangeManager.Reserve bindAt
  rw [e]
  simp only [h, Range.Allocate_free m.alloc vni h1 h2 h3 hh]

/-! ## The invariant -/

theorem size_toNat_maximum (base max : Int) :
    (NewContiguousAllocationMap (maximum 0 (max - base)) (toString base ++ "-" ++ toString max)).size
      = maximum 0 (max - base) := by
  unfold NewContiguousAllocationMap AllocationBitmap.size maximum
  simp only [List.length_replicate]
  split <;> omega

theorem Inv_init (base max : Int) (m0 : RangeManager)
    (h : NewRangeManager base max = Except.ok m0) : Inv base max m0 := by
  unfold NewRangeManager NewRange NewAllocatorRange at h
  simp only [Except.ok.injEq] at h
  subst h
  refine ⟨rfl, rfl, size_toNat_maximum base max, ?_, ?_⟩
  · intro n id hn
    simp [cacheGet] at hn
  · intro n1 n2 id hn
    simp [cacheGet] at hn

theorem offset_in_range (base max : Int) (m : RangeManager) (hinv : Inv base max m)
    (o : Nat) (ho : o < m.alloc.alloc.bits.length) :
    m.alloc.base ≤ m.alloc.base + (o : Int) ∧ m.alloc.base + (o : Int) < m.alloc.max := by
  obtain ⟨hb, hm, hs, _, _⟩ := hinv
  unfold AllocationBitmap.size maximum at hs
  rw [hb, hm]
  split at hs <;> omega

theorem Inv_bindAt (base max : Int) (m : RangeManager) (name : String) (o : Nat)
    (hinv : Inv base max m) (ho : o < m.alloc.alloc.bits.length)
    (hfree : m.alloc.alloc.bits.getD o false = false) :
    Inv base max (bindAt m name o) := by
  have hrange := offset_in_range base max m hinv o ho
  obtain ⟨hb, hm, hs, hhas, hinj⟩ := hinv
  have hmono : ∀ id, m.alloc.Has id = true → (bindAt m name o).alloc.Has id = true := by
    intro id hid
    rw [Range.Has_iff] at hid ⊢
    obtain ⟨h1, h2, h3⟩ := hid
    refine ⟨h1, h2, ?_⟩
    show (m.alloc.alloc.bits.set o true).getD (id - m.alloc.base).toNat false = true
    by_cases e : o = (id - m.alloc.base).toNat
    · rw [← e]; exact getD_set_self _ _ _ ho
    · rw [getD_set_ne _ _ _ _ e]; exact h3
  have hnew : (bindAt m name o).alloc.Has (m.alloc.base + (o : Int)) = true := by
    rw [Range.Has_iff]
    refine ⟨hrange.1, le_of_lt hrange.2, ?_⟩
    show (m.alloc.alloc.bits.set o true).getD (m.alloc.base + (o : Int) - m.alloc.base).toNat false
      = true
    have e : (m.alloc.base + (o : Int) - m.alloc.base).toNat = o := by
      rw [add_sub_cancel_left]; exact Int.toNat_natCast o
    rw [e]; exact getD_set_self _ _ _ ho
  have hold : ∀ n, cacheGet m.cache n ≠ some (m.alloc.base + (o : Int)) := by
    intro n hn
    have := (Range.Has_iff _ _).1 (hhas n _ hn)
    have e : (m.alloc.base + (o : Int) - m.alloc.base).toNat = o := by
      rw [add_sub_cancel_left]; exact Int.toNat_natCast o
    rw [e, hfree] at this
    exact absurd this.2.2 (by decide)
  refine ⟨hb, hm, ?_, ?_, ?_⟩
  · show ((m.alloc.alloc.bits.set o true).length : Int) = _
    rw [List.length_set]; exact hs
  · intro n id hn
    by_cases e : n = name
    · subst e
      have : cacheGet (bindAt m n o).cache n = some (m.alloc.base + (o : Int)) :=
        cacheGet_cacheSet_self _ _ _
      rw [this] at hn
      rw [← Option.some.inj hn]; exact hnew
    · have : cacheGet (bindAt m name o).cache n = cacheGet m.cache n :=
        cacheGet_cacheSet_ne _ _ _ _ e
      rw [this] at hn
      exact hmono id (hhas n id hn)
  · intro n1 n2 id h1 h2
    have c1 : cacheGet (bindAt m name o).cache name = some (m.alloc.base + (o : Int)) :=
      cacheGet_cacheSet_self _ _ _
    have c2 : ∀ n, n ≠ name → cacheGet (bindAt m name o).cache n = cacheGet m.cache n :=
      fun n hn => cacheGet_cacheSet_ne _ _ _ _ hn
    by_cases e1 : n1 = name <;> by_cases e2 : n2 = name
    · rw [e1, e2]
    · rw [e1, c1] at h1
      rw [c2 n2 e2, ← Option.some.inj h1] at h2
      exact absurd h2 (hold n2)
    · rw [e2, c1] at h2
      rw [c2 n1 e1, ← Option.some.inj h2] at h1
      exact absurd h1 (hold n1)
    · rw [c2 n1 e1] at h1
      rw [c2 n2 e2] at h2
      exact hinj n1 n2 id h1 h2

theorem bound_in_range (base max : Int) (m : RangeManager) (hinv : Inv base max m)
    (name : String) (id : Int) (h : cacheGet m.cache name = some id) :
    m.alloc.base ≤ id ∧ id ≤ m.alloc.max ∧ id - m.alloc.base < m.alloc.alloc.size ∧
      m.alloc.alloc.bits.getD (id - m.alloc.base).toNat false = true := by
  obtain ⟨h1, h2, h3⟩ := (Range.Has_iff _ _).1 (hinv.2.2.2.1 name id h)
  refine ⟨h1, h2, ?_, h3⟩
  by_contra hc
  have hlen : m.alloc.alloc.bits.length ≤ (id - m.alloc.base).toNat := by
    unfold AllocationBitmap.size at hc
    omega
  rw [List.getD_eq_default _ _ hlen] at h3
  exact absurd h3 (by decide)

theorem Release_bound (base max : Int) (m : RangeManager) (hinv : Inv base max m)
    (name : String) (id : Int) (h : cacheGet m.cache name = some id) :
    m.Release name =
      { cache := cacheDelete m.cache name,
        alloc := { m.alloc with
          alloc := { bits := m.alloc.alloc.bits.set (id - m.alloc.base).toNat false } } } := by
  obtain ⟨h1, h2, h3, _⟩ := bound_in_range base max m hinv name id h
  unfold RangeManager.Release
  simp only [h, Range.Release_in m.alloc id h1 h2 h3]

theorem Release_unbound (m : RangeManager) (name : String)
    (h : cacheGet m.cache name = none) : m.Release name = m := by
  simp [RangeManager.Release, h]

theorem Inv_Release (base max : Int) (m : RangeManager) (name : String)
    (hinv : Inv base max m) : Inv base max (m.Release name) := by
  cases hc : cacheGet m.cache name with
  | none => rw [Release_unbound m name hc]; exact hinv
  | some id =>
    rw [Release_bound base max m hinv name id hc]
    obtain ⟨hb, hm, hs, hhas, hinj⟩ := hinv
    refine ⟨hb, hm, ?_, ?_, ?_⟩
    · show ((m.alloc.alloc.bits.set _ false).length : Int) = _
      rw [List.length_set]; exact hs
    · intro n id' hn
      have hne : n ≠ name := by
        intro e
        rw [e] at hn
        have : cacheGet (cacheDelete m.cache name) name = some id' := hn
        rw [cacheGet_cacheDelete_self] at this
        exact absurd this (by simp)
      have hn' : cacheGet m.cache n = some id' := by
        have : cacheGet (cacheDelete m.cache name) n = some id' := hn
        rwa [cacheGet_cacheDelete_ne _ _ _ hne] at this
      have hid : id' ≠ id := by
        intro e
        rw [e] at hn'
        exact hne (hinj n name id hn' hc)
      obtain ⟨a1, a2, a3⟩ := (Range.Has_iff _ _).1 (hhas n id' hn')
      obtain ⟨b1, b2, _⟩ := (Range.Has_iff _ _).1 (hhas name id hc)
      rw [Range.Has_iff]
      refine ⟨a1, a2, ?_⟩
      show (m.alloc.alloc.bits.set (id - m.alloc.base).toNat false).getD
        (id' - m.alloc.base).toNat false = true
      have e : (id - m.alloc.base).toNat ≠ (id' - m.alloc.base).toNat := by omega
      rw [getD_set_ne _ _ _ _ e]; exact a3
    · intro n1 n2 id' h1 h2
      have d : ∀ n, cacheGet (cacheDelete m.cache name) n = some id' →
          cacheGet m.cache n = some id' := by
        intro n hn
        by_cases e : n = name
        · rw [e, cacheGet_cacheDelete_self] at hn; exact absurd hn (by simp)
        · rwa [cacheGet_cacheDelete_ne _ _ _ e] at hn
      exact hinj n1 n2 id' (d n1 h1) (d n2 h2)

theorem Allocate_cases (m : RangeManager) (name : String) :
    (∃ v, cacheGet m.cache name = some v ∧ m.Allocate name = (m, v, none)) ∨
    (cacheGet m.cache name = none ∧ firstFree m.alloc.alloc.bits = none ∧
      m.Allocate name = (m, 0, some Error.ErrFull)) ∨
    (∃ o, cacheGet m.cache name = none ∧ firstFree m.alloc.alloc.bits = some o ∧
      m.Allocate name = (bindAt m name o, m.alloc.base + (o : Int), none)) := by
  cases hc : cacheGet m.cache name with
  | some v => exact Or.inl ⟨v, rfl, Allocate_bound m name v hc⟩
  | none =>
    cases hf : firstFree m.alloc.alloc.bits with
    | none => exact Or.inr (Or.inl ⟨rfl, rfl, Allocate_full m name hc hf⟩)
    | some o => exact Or.inr (Or.inr ⟨o, rfl, rfl, Allocate_fresh m name o hc hf⟩)

theorem Reserve_cases (m : RangeManager) (name : String) (vni : Int) :
    (∃ v, cacheGet m.cache name = some v ∧ m.Reserve name vni = (m, none)) ∨
    (∃ e, cacheGet m.cache name = none ∧ m.alloc.Allocate vni = (m.alloc, some e) ∧
      m.Reserve name vni = (m, some e)) ∨
    (cacheGet m.cache name = none ∧ m.alloc.base ≤ vni ∧ vni ≤ m.alloc.max ∧
      vni - m.alloc.base < m.alloc.alloc.size ∧ m.alloc.Has vni = false ∧
      m.Reserve name vni = (bindAt m name (vni - m.alloc.base).toNat, none)) := by
  cases hc : cacheGet m.cache name with
  | some v => exact Or.inl ⟨v, rfl, Reserve_bound m name vni v hc⟩
  | none =>
    right
    by_cases h : vni < m.alloc.base ∨ vni > m.alloc.max
    · have he := Range.Allocate_notInRange m.alloc vni h
      exact Or.inl ⟨_, rfl, he, Reserve_error m name vni _ hc he⟩
    · have h1 : m.alloc.base ≤ vni := by omega
      have h2 : vni ≤ m.alloc.max := by omega
      by_cases h3 : m.alloc.alloc.size ≤ vni - m.alloc.base
      · have he := Range.Allocate_outOfBounds m.alloc vni h1 h2 h3
        exact Or.inl ⟨_, rfl, he, Reserve_error m name vni _ hc he⟩
      · have h3' : vni - m.alloc.base < m.alloc.alloc.size := by omega
        cases hh : m.alloc.Has vni with
        | true =>
          have he := Range.Allocate_used m.alloc vni hh h3'
          exact Or.inl ⟨_, rfl, he, Reserve_error m name vni _ hc he⟩
        | false =>
          exact Or.inr ⟨rfl, h1, h2, h3', rfl, Reserve_free m name vni hc h1 h2 h3' hh⟩

theorem Inv_Allocate (base max : Int) (m : RangeManager) (name : String)
    (hinv : Inv base max m) : Inv base max (m.Allocate name).1 := by
  rcases Allocate_cases m name with ⟨v, _, h⟩ | ⟨_, _, h⟩ | ⟨o, _, hf, h⟩
  · rw [h]; exact hinv
  · rw [h]; exact hinv
  · rw [h]
    obtain ⟨h1, h2, _⟩ := firstFree_some _ _ hf
    exact Inv_bindAt base max m name o hinv h1 h2

theorem Inv_Reserve (base max : Int) (m : RangeManager) (name : String) (vni : Int)
    (hinv : Inv base max m) : Inv base max (m.Reserve name vni).1 := by
  rcases Reserve_cases m name vni with ⟨v, _, h⟩ | ⟨e, _, _, h⟩ | ⟨_, h1, h2, h3, hh, h⟩
  · rw [h]; exact hinv
  · rw [h]; exact hinv
  · rw [h]
    have hlen : (vni - m.alloc.base).toNat < m.alloc.alloc.bits.length := by
      unfold AllocationBitmap.size at h3
      omega
    have hfree : m.alloc.alloc.bits.getD (vni - m.alloc.base).toNat false = false := by
      cases hb : m.alloc.alloc.bits.getD (vni - m.alloc.base).toNat false with
      | false => rfl
      | true =>
        have := (Range.Has_iff m.alloc vni).2 ⟨h1, h2, hb⟩
        rw [hh] at this
        exact absurd this (by decide)
    exact Inv_bindAt base max m name _ hinv hlen hfree

theorem Inv_step (base max : Int) (m : RangeManager) (op : Op) (hinv : Inv base max m) :
    Inv base max (step m op) := by
  cases op with
  | allocate name => exact Inv_Allocate base max m name hinv
  | release name => exact Inv_Release base max m name hinv
  | reserve name vni => exact Inv_Reserve base max m name vni hinv

theorem Inv_run (base max : Int) (ops : List Op) (m : RangeManager) (hinv : Inv base max m) :
    Inv base max (run m ops) := by
  induction ops generalizing m with
  | nil => exact hinv
  | cons op rest ih => exact ih (step m op) (Inv_step base max m op hinv)

theorem Inv_of_Reachable (base max : Int) (m : RangeManager) (h : Reachable base max m) :
    Inv base max m := by
  obtain ⟨m0, ops, h0, hrun⟩ := h
  rw [← hrun]
  exact Inv_run base max ops m0 (Inv_init base max m0 h0)

/-! ## Worked examples are reachable -/

theorem fresh_0_10_eq : NewRangeManager 0 10 = Except.ok fresh_0_10 := rfl

theorem fresh_100_100_eq : NewRangeManager 100 100 = Except.ok fresh_100_100 := rfl

theorem reachable_fresh_0_10 : Reachable 0 10 fresh_0_10 :=
  ⟨fresh_0_10, [], fresh_0_10_eq, rfl⟩

theorem reachable_fresh_100_100 : Reachable 100 100 fresh_100_100 :=
  ⟨fresh_100_100, [], fresh_100_100_eq, rfl⟩

theorem reachable_after_a : Reachable 0 10 after_a :=
  ⟨fresh_0_10, [Op.allocate "a"], fresh_0_10_eq, rfl⟩

theorem reachable_after_a_b : Reachable 0 10 after_a_b :=
  ⟨fresh_0_10, [Op.allocate "a", Op.allocate "b"], fresh_0_10_eq, rfl⟩

/-! ## The claims -/

/-- C1: in every manager state reachable from `NewRangeManager(base, max)` by a
finite sequence of `Allocate`, `Release` and `Reserve` calls, the binding table
is injective: no two distinct names are bound to the same id. -/
theorem binding_table_injective (base max : Int) (m : RangeManager)
    (h : Reachable base max m) : BindingInjective m.cache :=
  (Inv_of_Reachable base max m h).2.2.2.2

/-- Instance of C1 at the manager over `(0, 10)` after `Allocate("a")` and
`Allocate("b")`. -/
theorem binding_table_injective_witness :
    Reachable 0 10 after_a_b ∧ BindingInjective after_a_b.cache :=
  ⟨reachable_after_a_b, binding_table_injective 0 10 after_a_b reachable_after_a_b⟩

/-- C2: `Allocate` is idempotent per name. In every manager state (reachable
or not), if `Allocate(name)` returns `id` without error and leaves the state
`m1`, then an immediately following `Allocate(name)` returns the same `id`
without error and leaves the state `m1` unchanged: the binding table and the
range are the same, so `Free()` is the same after the second call as after the
first. -/
theorem Allocate_idempotent (m m1 : RangeManager) (name : String) (id : Int)
    (h : m.Allocate name = (m1, id, none)) :
    m1.Allocate name = (m1, id, none) ∧
      (m1.Allocate name).1.alloc.Free = m1.alloc.Free := by
  have key : m1.Allocate name = (m1, id, none) := by
    rcases Allocate_cases m name with ⟨v, hv, e⟩ | ⟨_, _, e⟩ | ⟨o, _, _, e⟩
    · rw [e] at h
      simp only [Prod.mk.injEq] at h
      obtain ⟨h1, h2, _⟩ := h
      subst h1; subst h2
      exact Allocate_bound m name v hv
    · rw [e] at h
      simp at h
    · rw [e] at h
      simp only [Prod.mk.injEq] at h
      obtain ⟨h1, h2, _⟩ := h
      subst h1; subst h2
      exact Allocate_bound _ name _ (cacheGet_cacheSet_self _ _ _)
  exact ⟨key, by rw [key]⟩

/-- Instance of C2 at the fresh manager over `(0, 10)` and the name `"a"`. -/
theorem Allocate_idempotent_witness :
    fresh_0_10.Allocate "a" = (after_a, 0, none) ∧
      after_a.Allocate "a" = (after_a, 0, none) ∧
      (after_a.Allocate "a").1.alloc.Free = after_a.alloc.Free :=
  ⟨by decide, Allocate_idempotent fresh_0_10 after_a "a" 0 (by decide)⟩

/-- C3 (the code at the failing input): `NewRangeManager(100, 100)` builds a
bitmap of `maximum(0, max-base) = 0` offsets, so although `"a"` is unbound and
the id `100` of `[100, 100]` is free (`Has(100)` is false), `Allocate("a")`
returns `(0, ErrFull)` and binds nothing, where the claim has it return `100`. -/
theorem Allocate_fails_with_a_free_id :
    NewRangeManager 100 100 = Except.ok fresh_100_100 ∧
      cacheGet fresh_100_100.cache "a" = none ∧
      fresh_100_100.alloc.Has 100 = false ∧
      fresh_100_100.Allocate "a" = (fresh_100_100, 0, some Error.ErrFull) :=
  ⟨rfl, by decide, by decide, by decide⟩

theorem firstFree_none_of_Free (r : Range) (h : r.Free = 0) :
    firstFree r.alloc.bits = none := by
  cases hf : firstFree r.alloc.bits with
  | none => rfl
  | some o =>
    obtain ⟨h1, h2, _⟩ := firstFree_some _ _ hf
    have := count_set_true _ o h1 h2
    unfold Range.Free AllocationBitmap.Free at h
    omega

theorem firstFree_none_of_all_used (base max : Int) (m : RangeManager)
    (hinv : Inv base max m)
    (h : ∀ id, base ≤ id → id ≤ max → m.alloc.Has id = true) :
    firstFree m.alloc.alloc.bits = none := by
  obtain ⟨hb, hm, hs, _, _⟩ := hinv
  unfold AllocationBitmap.size maximum at hs
  by_cases hle : base ≤ max
  · have hmax := (Range.Has_iff _ _).1 (h max hle (le_refl _))
    have hlen : m.alloc.alloc.bits.length ≤ (max - m.alloc.base).toNat := by
      rw [hb]
      split at hs <;> omega
    rw [List.getD_eq_default _ _ hlen] at hmax
    exact absurd hmax.2.2 (by decide)
  · have hlen : m.alloc.alloc.bits.length = 0 := by
      split at hs <;> omega
    rw [List.length_eq_zero.1 hlen]
    rfl

/-- C4: in every reachable manager state, for every unbound name, when the
range has no free id (`Free()` is 0, or every id of `[base, max]` is
allocated), `Allocate(name)` returns the `ErrFull` error and leaves the state
as it was: same binding table, same bitmap, so the name stays unbound and
`Free()` is unchanged. And `ErrFull` is the only error `Allocate` returns, in
any state and for any name. -/
theorem Allocate_exhausted (base max : Int) (m : RangeManager)
    (hr : Reachable base max m) (name : String)
    (hn : cacheGet m.cache name = none)
    (hfull : m.alloc.Free = 0 ∨ ∀ id, base ≤ id → id ≤ max → m.alloc.Has id = true) :
    m.Allocate name = (m, 0, some Error.ErrFull) ∧
      ∀ (m' : RangeManager) (n : String) (e : Error),
        (m'.Allocate n).2.2 = some e → e = Error.ErrFull := by
  constructor
  · have hf : firstFree m.alloc.alloc.bits = none := by
      rcases hfull with h | h
      · exact firstFree_none_of_Free m.alloc h
      · exact firstFree_none_of_all_used base max m (Inv_of_Reachable base max m hr) h
    exact Allocate_full m name hn hf
  · intro m' n e he
    rcases Allocate_cases m' n with ⟨v, _, h⟩ | ⟨_, _, h⟩ | ⟨o, _, _, h⟩
    · rw [h] at he; simp at he
    · rw [h] at he
      simp only [Option.some.injEq] at he
      exact he.symm
    · rw [h] at he; simp at he

/-- Instance of C4 at the fresh manager over `(100, 100)` and the name `"a"`. -/
theorem Allocate_exhausted_witness :
    Reachable 100 100 fresh_100_100 ∧ cacheGet fresh_100_100.cache "a" = none ∧
      fresh_100_100.alloc.Free = 0 ∧
      fresh_100_100.Allocate "a" = (fresh_100_100, 0, some Error.ErrFull) :=
  ⟨reachable_fresh_100_100, by decide, by decide,
    (Allocate_exhausted 100 100 fresh_100_100 reachable_fresh_100_100 "a" (by decide)
      (Or.inl (by decide))).1⟩

theorem step_keeps_binding (m : RangeManager) (name : String) (id : Int) (op : Op)
    (hb : cacheGet m.cache name = some id) (hop : op ≠ Op.release name) :
    cacheGet (step m op).cache name = some id := by
  cases op with
  | allocate n =>
    show cacheGet (m.Allocate n).1.cache name = some id
    rcases Allocate_cases m n with ⟨v, _, h⟩ | ⟨_, _, h⟩ | ⟨o, hn, _, h⟩
    · rw [h]; exact hb
    · rw [h]; exact hb
    · rw [h]
      have hne : name ≠ n := by
        intro e; rw [e, hn] at hb; exact absurd hb (by simp)
      show cacheGet (cacheSet m.cache n _) name = some id
      rw [cacheGet_cacheSet_ne _ _ _ _ hne]; exact hb
  | release n =>
    have hne : name ≠ n := by
      intro e; exact hop (by rw [e])
    show cacheGet (m.Release n).cache name = some id
    unfold RangeManager.Release
    cases hc : cacheGet m.cache n with
    | none => exact hb
    | some v =>
      show cacheGet (cacheDelete m.cache n) name = some id
      rw [cacheGet_cacheDelete_ne _ _ _ hne]; exact hb
  | reserve n vni =>
    show cacheGet (m.Reserve n vni).1.cache name = some id
    rcases Reserve_cases m n vni with ⟨v, _, h⟩ | ⟨e, _, _, h⟩ | ⟨hn, _, _, _, _, h⟩
    · rw [h]; exact hb
    · rw [h]; exact hb
    · rw [h]
      have hne : name ≠ n := by
        intro e; rw [e, hn] at hb; exact absurd hb (by simp)
      show cacheGet (cacheSet m.cache n _) name = some id
      rw [cacheGet_cacheSet_ne _ _ _ _ hne]; exact hb

/-- C5: a bound name is never rebound. In every manager state (reachable or
not) in which `name` is bound to `id`, after any finite sequence of `Allocate`
and `Reserve` calls (on any names, with any ids) and of `Release` calls on
names other than `name`, `name` is still bound to the same `id`; only
`Release(name)` unbinds it. -/
theorem bound_name_keeps_id (m : RangeManager) (name : String) (id : Int) (ops : List Op)
    (hb : cacheGet m.cache name = some id) (hops : ∀ op ∈ ops, op ≠ Op.release name) :
    cacheGet (run m ops).cache name = some id := by
  induction ops generalizing m with
  | nil => exact hb
  | cons op rest ih =>
    have h1 := step_keeps_binding m name id op hb (hops op (List.mem_cons_self _ _))
    exact ih (step m op) h1 (fun o ho => hops o (List.mem_cons_of_mem _ ho))

/-- Instance of C5: `"a"` bound to `0` over `(0, 10)` keeps its id through
`Allocate("a")`, `Reserve("a", 7)`, `Allocate("b")`, `Release("b")` and
`Reserve("c", 0)`. -/
theorem bound_name_keeps_id_witness :
    cacheGet after_a.cache "a" = some 0 ∧
      cacheGet (run after_a [Op.allocate "a", Op.reserve "a" 7, Op.allocate "b",
        Op.release "b", Op.reserve "c" 0]).cache "a" = some 0 :=
  ⟨by decide, bound_name_keeps_id after_a "a" 0 _ (by decide) (by decide)⟩

/-- C6: `Release(name)` in every reachable manager state. If `name` is bound to
`id`, then afterwards `name` is unbound, `id` is free in the range (`Has(id)` is
false) and `Free()` is larger by exactly 1; if `name` is unbound the call leaves
the state (binding table and range) identical. -/
theorem Release_frees_bound_id (base max : Int) (m : RangeManager)
    (hr : Reachable base max m) (name : String) :
    (∀ id, cacheGet m.cache name = some id →
      cacheGet (m.Release name).cache name = none ∧
      (m.Release name).alloc.Has id = false ∧
      (m.Release name).alloc.Free = m.alloc.Free + 1) ∧
    (cacheGet m.cache name = none → m.Release name = m) := by
  have hinv := Inv_of_Reachable base max m hr
  refine ⟨?_, Release_unbound m name⟩
  intro id hb
  obtain ⟨h1, h2, h3, h4⟩ := bound_in_range base max m hinv name id hb
  have hlen : (id - m.alloc.base).toNat < m.alloc.alloc.bits.length := by
    unfold AllocationBitmap.size at h3
    omega
  rw [Release_bound base max m hinv name id hb]
  refine ⟨cacheGet_cacheDelete_self _ _, ?_, ?_⟩
  · cases hh : Range.Has _ id with
    | false => rfl
    | true =>
      have := ((Range.Has_iff _ _).1 hh).2.2
      have e : (m.alloc.alloc.bits.set (id - m.alloc.base).toNat false).getD
          (id - m.alloc.base).toNat false = false := getD_set_self _ _ _ hlen
      rw [e] at this
      exact absurd this (by decide)
  · show ((List.count false (m.alloc.alloc.bits.set (id - m.alloc.base).toNat false) : Nat) : Int)
      = ((List.count false m.alloc.alloc.bits : Nat) : Int) + 1
    rw [count_set_false _ _ hlen h4]
    push_cast
    rfl

/-- Instance of C6 at the manager over `(0, 10)` in which `"a"` is bound to `0`. -/
theorem Release_frees_bound_id_witness :
    Reachable 0 10 after_a ∧ cacheGet after_a.cache "a" = some 0 ∧
      cacheGet (after_a.Release "a").cache "a" = none ∧
      (after_a.Release "a").alloc.Has 0 = false ∧
      (after_a.Release "a").alloc.Free = after_a.alloc.Free + 1 :=
  ⟨reachable_after_a, by decide,
    (Release_frees_bound_id 0 10 after_a reachable_after_a "a").1 0 (by decide)⟩

/-- C7: `Allocate` followed by `Release` is a round trip. In every reachable
manager state `m` and for every unbound name `n`, if `Allocate(n)` returns `id`
and leaves the state `m1`, then `Release(n)` on `m1` gives back `m` itself (same
binding table, same bitmap, so `Free()` is back to its earlier value), and the
next `Allocate` of any unbound name returns that same `id` without error. -/
theorem Allocate_Release_round_trip (base max : Int) (m m1 : RangeManager)
    (hr : Reachable base max m) (n : String) (id : Int)
    (hn : cacheGet m.cache n = none) (h : m.Allocate n = (m1, id, none)) :
    m1.Release n = m ∧ (m1.Release n).alloc.Free = m.alloc.Free ∧
      ∀ n', cacheGet (m1.Release n).cache n' = none →
        ((m1.Release n).Allocate n').2 = (id, none) := by
  have hinv := Inv_of_Reachable base max m hr
  rcases Allocate_cases m n with ⟨v, hv, _⟩ | ⟨_, _, e⟩ | ⟨o, _, hf, e⟩
  · rw [hn] at hv; exact absurd hv (by simp)
  · rw [e] at h; simp at h
  · rw [e] at h
    simp only [Prod.mk.injEq] at h
    obtain ⟨hm1, hid, _⟩ := h
    obtain ⟨ho, hfree, _⟩ := firstFree_some _ _ hf
    have hinv1 : Inv base max (bindAt m n o) := Inv_bindAt base max m n o hinv ho hfree
    have hb1 : cacheGet (bindAt m n o).cache n = some (m.alloc.base + (o : Int)) :=
      cacheGet_cacheSet_self _ _ _
    have hrel : (bindAt m n o).Release n = m := by
      rw [Release_bound base max _ hinv1 n _ hb1]
      have e1 : (m.alloc.base + (o : Int) - (bindAt m n o).alloc.base).toNat = o := by
        show (m.alloc.base + (o : Int) - m.alloc.base).toNat = o
        rw [add_sub_cancel_left]; exact Int.toNat_natCast o
      have e2 : cacheDelete (bindAt m n o).cache n = m.cache := by
        show cacheDelete ((n, _) :: cacheDelete m.cache n) n = m.cache
        rw [cacheDelete_of_none m.cache n hn]
        have : cacheDelete ((n, m.alloc.base + (o : Int)) :: m.cache) n = cacheDelete m.cache n := by
          simp [cacheDelete, List.filter_cons]
        rw [this, cacheDelete_of_none m.cache n hn]
      rw [e1, e2]
      have e3 : (bindAt m n o).alloc.alloc.bits.set o false = m.alloc.alloc.bits :=
        set_set_restore _ _ hfree
      rw [e3]
      rfl
    subst hm1
    rw [hrel]
    refine ⟨rfl, rfl, ?_⟩
    intro n' hn'
    rw [Allocate_fresh m n' o hn' hf, ← hid]

/-- Instance of C7 at the fresh manager over `(0, 10)`: `Allocate("a")` returns
`0`, `Release("a")` restores the fresh manager, and `Allocate("b")` returns `0`. -/
theorem Allocate_Release_round_trip_witness :
    Reachable 0 10 fresh_0_10 ∧ fresh_0_10.Allocate "a" = (after_a, 0, none) ∧
      after_a.Release "a" = fresh_0_10 ∧
      ((after_a.Release "a").Allocate "b").2 = (0, none) :=
  have h := Allocate_Release_round_trip 0 10 fresh_0_10 after_a reachable_fresh_0_10 "a" 0
    (by decide) (by decide)
  ⟨reachable_fresh_0_10, by decide, h.1, h.2.2 "b" (by decide)⟩

/-- C8 as stated fails: over `(0, 10)` after `Allocate("a")` and `Allocate("b")`
the id `1` is bound to `"b"`, a name different from `"a"`, yet `Reserve("a", 1)`
returns no error, because `"a"` is itself already bound. -/
theorem Reserve_no_conflict_for_bound_name :
    Reachable 0 10 after_a_b ∧ cacheGet after_a_b.cache "b" = some 1 ∧ "b" ≠ "a" ∧
      after_a_b.Reserve "a" 1 = (after_a_b, none) :=
  ⟨reachable_after_a_b, by decide, by decide, by decide⟩

/-- C8 amended: in every reachable manager state, for every unbound `name`,
`Reserve(name, id)` fails with the conflict error `ErrAllocated` whenever `id` is
currently bound to another name, and the state (binding table and range) is
left unchanged. -/
theorem Reserve_conflict (base max : Int) (m : RangeManager) (hr : Reachable base max m)
    (name other : String) (id : Int) (hn : cacheGet m.cache name = none)
    (ho : cacheGet m.cache other = some id) :
    other ≠ name ∧ m.Reserve name id = (m, some Error.ErrAllocated) := by
  have hinv := Inv_of_Reachable base max m hr
  obtain ⟨_, _, h3, _⟩ := bound_in_range base max m hinv other id ho
  have hne : other ≠ name := by
    intro e; rw [e, hn] at ho; exact absurd ho (by simp)
  have hh := hinv.2.2.2.1 other id ho
  exact ⟨hne, Reserve_error m name id _ hn (Range.Allocate_used m.alloc id hh h3)⟩

/-- Instance of C8 amended: over `(0, 10)` with `"a"` bound to `0`,
`Reserve("b", 0)` fails with `ErrAllocated` and changes nothing. -/
theorem Reserve_conflict_witness :
    Reachable 0 10 after_a ∧ cacheGet after_a.cache "b" = none ∧
      cacheGet after_a.cache "a" = some 0 ∧
      "a" ≠ "b" ∧ after_a.Reserve "b" 0 = (after_a, some Error.ErrAllocated) :=
  ⟨reachable_after_a, by decide, by decide,
    Reserve_conflict 0 10 after_a reachable_after_a "b" "a" 0 (by decide) (by decide)⟩

/-- C9 as stated fails: over `(0, 10)` with `"a"` bound, `Reserve("a", 99)`
returns no error although `99 > max`. -/
theorem Reserve_out_of_range_accepted_for_bound_name :
    Reachable 0 10 after_a ∧ (99 : Int) > 10 ∧ after_a.Reserve "a" 99 = (after_a, none) :=
  ⟨reachable_after_a, by decide, by decide⟩

/-- C9 amended: in every reachable manager state and for every `id < base` or
`id > max`, `Reserve(name, id)` leaves the binding table and the range
unchanged; for every unbound `name` it fails with the out-of-range error of
`Range.Allocate`, and for a bound `name` it returns no error. -/
theorem Reserve_out_of_range (base max : Int) (m : RangeManager)
    (hr : Reachable base max m) (name : String) (id : Int)
    (hid : id < base ∨ id > max) :
    (m.Reserve name id).1 = m ∧
      (cacheGet m.cache name = none →
        (m.Reserve name id).2 = some (Error.notInRange id base max)) ∧
      (∀ v, cacheGet m.cache name = some v → (m.Reserve name id).2 = none) := by
  obtain ⟨hb, hm, _⟩ := Inv_of_Reachable base max m hr
  have hid' : id < m.alloc.base ∨ id > m.alloc.max := by rw [hb, hm]; exact hid
  have he := Range.Allocate_notInRange m.alloc id hid'
  cases hc : cacheGet m.cache name with
  | some v =>
    rw [Reserve_bound m name id v hc]
    exact ⟨rfl, fun h => absurd h (by simp), fun _ _ => rfl⟩
  | none =>
    rw [Reserve_error m name id _ hc he, hb, hm]
    exact ⟨rfl, fun _ => rfl, fun v h => absurd h (by simp)⟩

/-- Instance of C9 amended: over `(0, 10)` with `"b"` unbound, `Reserve("b", 11)`
fails with the out-of-range error and changes nothing. -/
theorem Reserve_out_of_range_witness :
    Reachable 0 10 after_a ∧ ((11 : Int) < 0 ∨ (11 : Int) > 10) ∧
      (after_a.Reserve "b" 11).1 = after_a ∧
      (after_a.Reserve "b" 11).2 = some (Error.notInRange 11 0 10) :=
  have h := Reserve_out_of_range 0 10 after_a reachable_after_a "b" 11 (by decide)
  ⟨reachable_after_a, by decide, h.1, h.2.1 (by decide)⟩

/-- C10 as stated fails: over `(0, 10)` with `"a"` bound to `0`, `Reserve("a", 5)`
returns success, and the following `Allocate("a")` returns `0`, not `5`. -/
theorem Reserve_then_Allocate_other_id :
    Reachable 0 10 after_a ∧ after_a.Reserve "a" 5 = (after_a, none) ∧
      after_a.Allocate "a" = (after_a, 0, none) ∧ (after_a.Allocate "a").2.1 ≠ 5 :=
  ⟨reachable_after_a, by decide, by decide, by decide⟩

/-- C10 amended: in every manager state (reachable or not), if
`Reserve(name, id)` returns success and leaves the state `m1`, then an
immediately following `Allocate(name)` returns no error and leaves `m1`
unchanged, so it consumes no further offset (`Free()` is unchanged); it returns
exactly `id` when `name` was not bound to a different id before the `Reserve`,
and otherwise the id `name` was already bound to. -/
theorem Reserve_then_Allocate (m m1 : RangeManager) (name : String) (id : Int)
    (h : m.Reserve name id = (m1, none)) :
    (m1.Allocate name).1 = m1 ∧ (m1.Allocate name).2.2 = none ∧
      (m1.Allocate name).1.alloc.Free = m1.alloc.Free ∧
      ((∀ v, cacheGet m.cache name = some v → v = id) → (m1.Allocate name).2.1 = id) ∧
      (∀ v, cacheGet m.cache name = some v → (m1.Allocate name).2.1 = v) := by
  rcases Reserve_cases m name id with ⟨v, hv, e⟩ | ⟨err, _, _, e⟩ | ⟨hn, h1, _, _, _, e⟩
  · rw [e] at h
    simp only [Prod.mk.injEq, and_true] at h
    subst h
    rw [Allocate_bound m name v hv]
    refine ⟨rfl, rfl, rfl, fun hb => hb v hv, fun w hw => ?_⟩
    rw [hv] at hw
    exact Option.some.inj hw
  · rw [e] at h
    simp at h
  · rw [e] at h
    simp only [Prod.mk.injEq, and_true] at h
    subst h
    have hid : m.alloc.base + (((id - m.alloc.base).toNat : Nat) : Int) = id := by
      rw [Int.toNat_of_nonneg (by omega)]; omega
    have hb : cacheGet (bindAt m name (id - m.alloc.base).toNat).cache name = some id := by
      have := cacheGet_cacheSet_self m.cache name
        (m.alloc.base + (((id - m.alloc.base).toNat : Nat) : Int))
      exact this.trans (congrArg some hid)
    rw [Allocate_bound _ name id hb]
    refine ⟨rfl, rfl, rfl, fun _ => rfl, fun w hw => ?_⟩
    rw [hn] at hw
    exact absurd hw (by simp)

/-- Instance of C10 amended: over `(0, 10)` with `"a"` bound to `0`,
`Reserve("b", 5)` succeeds and the following `Allocate("b")` returns `5` with
no error and no change of state. -/
theorem Reserve_then_Allocate_witness :
    after_a.Reserve "b" 5 = (run after_a [Op.reserve "b" 5], none) ∧
      ((run after_a [Op.reserve "b" 5]).Allocate "b").1 = run after_a [Op.reserve "b" 5] ∧
      ((run after_a [Op.reserve "b" 5]).Allocate "b").2.2 = none ∧
      ((run after_a [Op.reserve "b" 5]).Allocate "b").2.1 = 5 :=
  have h := Reserve_then_Allocate after_a (run after_a [Op.reserve "b" 5]) "b" 5 (by decide)
  ⟨by decide, h.1, h.2.1, h.2.2.2.1 (by decide)⟩

/-! ## Worked ranges are the constructor's results -/

theorem range_0_10_eq : NewRange 0 10 = (range_0_10, none) := rfl

theorem range_100_100_eq : NewRange 100 100 = (range_100_100, none) := rfl

theorem range_4096_4098_eq : NewRange 4096 4098 = (range_4096_4098, none) := rfl

/-- C11 (the code at the failing input): on the fresh manager of
`NewRangeManager(0, 10)` the name `"a"` is unbound and the id `10 = max` lies in
`[0, 10]` and is not allocated, yet `Reserve("a", 10)` returns the bitmap's
out-of-bounds error and binds nothing, because the bitmap was built with
`maximum(0, max-base) = 10` offsets and offset `10` is outside `[0, 10)`. -/
theorem Reserve_of_max_fails :
    Reachable 0 10 fresh_0_10 ∧ cacheGet fresh_0_10.cache "a" = none ∧
      ((0 : Int) ≤ 10 ∧ (10 : Int) ≤ 10) ∧ fresh_0_10.alloc.Has 10 = false ∧
      fresh_0_10.Reserve "a" 10 = (fresh_0_10, some (Error.outOfBounds 10 10)) :=
  ⟨reachable_fresh_0_10, by decide, by decide, by decide, by decide⟩

/-- C12: `Reserve(name, id)` is a successful no-op when `name` is already bound
to exactly `id`: in every manager state (reachable or not) it returns no error
and leaves the state as it was, so the binding table, the allocated set and
`Free()` are unchanged. -/
theorem Reserve_same_id_noop (m : RangeManager) (name : String) (id : Int)
    (h : cacheGet m.cache name = some id) :
    m.Reserve name id = (m, none) ∧ (m.Reserve name id).1.cache = m.cache ∧
      (m.Reserve name id).1.alloc = m.alloc ∧
      (m.Reserve name id).1.alloc.Free = m.alloc.Free := by
  have key := Reserve_bound m name id id h
  rw [key]
  exact ⟨rfl, rfl, rfl, rfl⟩

/-- Instance of C12: over `(0, 10)` with `"a"` bound to `0`, `Reserve("a", 0)`
returns no error and changes nothing. -/
theorem Reserve_same_id_noop_witness :
    cacheGet after_a.cache "a" = some 0 ∧ after_a.Reserve "a" 0 = (after_a, none) :=
  ⟨by decide, (Reserve_same_id_noop after_a "a" 0 (by decide)).1⟩

/-- C13 as stated fails: `NewRangeManager(5, 3)`, with `base > max`, returns a
manager and no error. -/
theorem NewRangeManager_accepts_inverted_interval :
    (5 : Int) > 3 ∧ NewRangeManager 5 3 = Except.ok fresh_5_3 :=
  ⟨by decide, rfl⟩

theorem step_inverted_interval (base max : Int) (h : base > max) (op : Op) :
    step (emptyManager base max) op = emptyManager base max := by
  cases op with
  | allocate name =>
    show ((emptyManager base max).Allocate name).1 = _
    rw [Allocate_full (emptyManager base max) name rfl rfl]
  | release name => exact Release_unbound (emptyManager base max) name rfl
  | reserve name vni =>
    have hout : vni < base ∨ vni > max := by omega
    show ((emptyManager base max).Reserve name vni).1 = _
    rw [Reserve_error (emptyManager base max) name vni _ rfl
      (Range.Allocate_notInRange (emptyManager base max).alloc vni hout)]

theorem run_inverted_interval (base max : Int) (h : base > max) (ops : List Op) :
    run (emptyManager base max) ops = emptyManager base max := by
  induction ops with
  | nil => rfl
  | cons op rest ih =>
    show run (step (emptyManager base max) op) rest = _
    rw [step_inverted_interval base max h op]
    exact ih

theorem Reachable_inverted_interval (base max : Int) (h : base > max) (m : RangeManager)
    (hr : Reachable base max m) : m = emptyManager base max := by
  obtain ⟨m0, ops, h0, hrun⟩ := hr
  have e : maximum 0 (max - base) = 0 := by
    unfold maximum
    split <;> omega
  unfold NewRangeManager NewRange NewAllocatorRange at h0
  simp only [Except.ok.injEq] at h0
  rw [e] at h0
  rw [← hrun, ← h0]
  exact run_inverted_interval base max h ops

/-- C13 amended: `NewRangeManager(base, max)` never returns an error: for every
pair of integers, `base > max` included, it returns a manager with an empty
binding table over the interval `(base, max)`. When `base > max` and the
difference `max - base` fits a machine `int` (so that the subtraction of
`NewAllocatorRange` does not wrap), the bitmap has no offsets and nothing can be
allocated: in every state reachable from the returned manager the binding table
is empty, every `Allocate(name)` returns `ErrFull` and every `Reserve(name, id)`
returns the out-of-range error of `Range.Allocate`, both leaving the state as it
was. -/
theorem NewRangeManager_always_succeeds (base max : Int) :
    (∃ m0, NewRangeManager base max = Except.ok m0 ∧ m0.cache = [] ∧
      m0.alloc.base = base ∧ m0.alloc.max = max) ∧
    (base > max → fitsInt (max - base) → ∀ m, Reachable base max m →
      m.cache = [] ∧ m.alloc.alloc.bits = [] ∧
      ∀ name, m.Allocate name = (m, 0, some Error.ErrFull) ∧
        ∀ id, m.Reserve name id = (m, some (Error.notInRange id base max))) := by
  refine ⟨⟨_, rfl, rfl, rfl, rfl⟩, ?_⟩
  intro h _ m hr
  have hm := Reachable_inverted_interval base max h m hr
  subst hm
  refine ⟨rfl, rfl, fun name =>
    ⟨Allocate_full (emptyManager base max) name rfl rfl, fun id => ?_⟩⟩
  have hout : id < base ∨ id > max := by omega
  exact Reserve_error (emptyManager base max) name id _ rfl
    (Range.Allocate_notInRange (emptyManager base max).alloc id hout)

/-- Instance of C13 amended at `NewRangeManager(5, 3)`: a manager is returned,
`max - base = -2` fits a machine `int`, and on it `Allocate("a")` returns
`ErrFull` and `Reserve("a", 4)` the out-of-range error. -/
theorem NewRangeManager_always_succeeds_witness :
    (5 : Int) > 3 ∧ fitsInt (3 - 5) ∧ Reachable 5 3 fresh_5_3 ∧
      fresh_5_3.Allocate "a" = (fresh_5_3, 0, some Error.ErrFull) ∧
      fresh_5_3.Reserve "a" 4 = (fresh_5_3, some (Error.notInRange 4 5 3)) :=
  have hfit : fitsInt (3 - 5) := by unfold fitsInt; decide
  have hr : Reachable 5 3 fresh_5_3 := ⟨fresh_5_3, [], rfl, rfl⟩
  have h := ((NewRangeManager_always_succeeds 5 3).2 (by decide) hfit fresh_5_3 hr).2.2 "a"
  ⟨by decide, hfit, hr, h.1, h.2 4⟩

/-- C14 (the code at the failing input): with `base = max = 100` the size is
`S = max - base + 1 = 1`, and for `N = 1` the claim has the single
`AllocateNext()` on the fresh range return `100`; the code returns
`(0, ErrFull)`. -/
theorem AllocateNext_dense_fails_at_size :
    NewRange 100 100 = (range_100_100, none) ∧
      range_100_100.allocateNextTimes 1 = ([(0, some Error.ErrFull)], range_100_100) :=
  ⟨rfl, by decide⟩

/-- C15 (the code at the failing input): on the fresh range of
`NewRange(100, 100)` the id `100` is not allocated, yet the first
`AllocateNext()` already fails with `ErrFull`, where the claim has it return
`100` and only the second call fail. -/
theorem AllocateNext_full_with_free_id :
    NewRange 100 100 = (range_100_100, none) ∧ range_100_100.Has 100 = false ∧
      range_100_100.AllocateNext = (range_100_100, 0, some Error.ErrFull) :=
  ⟨rfl, by decide, by decide⟩

/-- C16 (the code at the failing input): on the fresh range of
`NewRange(4096, 4098)` three `AllocateNext()` calls return `4096`, `4097` and then
`ErrFull`, where the claim has the third return `4098`; the id `4098` is never
allocated. -/
theorem AllocateNext_third_of_three_fails :
    NewRange 4096 4098 = (range_4096_4098, none) ∧
      (range_4096_4098.allocateNextTimes 3).1 =
        [(4096, none), (4097, none), (0, some Error.ErrFull)] ∧
      (range_4096_4098.allocateNextTimes 3).2.Has 4098 = false :=
  ⟨rfl, by decide, by decide⟩

/-- C17 (the code at the failing input): on the fresh range of `NewRange(0, 10)`
the id `10 = max` is in `[base, max]` and free, yet `Allocate(10)` returns the
bitmap's out-of-bounds error and `Has(10)` stays false, where the claim has it
return no error and mark the id used. -/
theorem Range_Allocate_of_max_fails :
    NewRange 0 10 = (range_0_10, none) ∧ range_0_10.Has 10 = false ∧
      range_0_10.Allocate 10 = (range_0_10, some (Error.outOfBounds 10 10)) ∧
      (range_0_10.Allocate 10).1.Has 10 = false :=
  ⟨rfl, by decide, by decide, by decide⟩

/-- C18 (the code at the failing input): on the fresh range of `NewRange(0, 10)`
no id of `[0, 10]` is allocated, yet `Used()` is `1` and `Free()` is `10`, where
the claim has `Used() = 0` and `Free() = max - base + 1 = 11`. -/
theorem Used_of_fresh_range_is_one :
    NewRange 0 10 = (range_0_10, none) ∧ range_0_10.allocatedCount = 0 ∧
      range_0_10.Used = 1 ∧ range_0_10.Free = 10 :=
  ⟨rfl, by decide, by decide, by decide⟩

/-! ## `Range.Release` and `Range.ForEach` -/

theorem set_false_same (l : List Bool) (o : Nat) (hb : l.getD o false = false) :
    l.set o false = l := by
  induction l generalizing o with
  | nil => simp
  | cons b rest ih =>
    cases o with
    | zero =>
      simp at hb
      subst hb
      simp
    | succ o => simp [ih o (by simpa using hb)]

theorem Range.Has_in (r : Range) (v : Int) (h1 : r.base ≤ v) (h2 : v ≤ r.max) :
    r.Has v = r.alloc.bits.getD (v - r.base).toNat false := by
  unfold Range.Has
  simp only [Range.contains_in r v h1 h2, Bool.not_true]
  exact bitmap_Has_eq r.alloc (v - r.base) (by omega)

theorem Range.Has_out (r : Range) (v : Int) (h : v < r.base ∨ v > r.max) :
    r.Has v = false := by
  simp [Range.Has, Range.contains, h]

theorem Range.Release_beyond (r : Range) (vni : Int) (h1 : r.base ≤ vni) (h2 : vni ≤ r.max)
    (h3 : r.alloc.size ≤ vni - r.base) : r.Release vni = r := by
  have h4 : vni - r.base < 0 ∨ r.alloc.size ≤ vni - r.base := Or.inr h3
  unfold Range.Release
  simp only [Range.contains_in r vni h1 h2, Bool.not_true]
  unfold AllocationBitmap.Release
  rw [if_pos h4]
  rfl

theorem Range.Has_after_set (r : Range) (o : Nat) (b : Bool) (v : Int) :
    ({ r with alloc := { bits := r.alloc.bits.set o b } } : Range).Has v =
      if v < r.base ∨ v > r.max then false
      else (r.alloc.bits.set o b).getD (v - r.base).toNat false := by
  by_cases h : v < r.base ∨ v > r.max
  · rw [if_pos h]
    exact Range.Has_out ({ r with alloc := { bits := r.alloc.bits.set o b } } : Range) v h
  · rw [if_neg h]
    exact Range.Has_in ({ r with alloc := { bits := r.alloc.bits.set o b } } : Range) v
      (by show r.base ≤ v; omega) (by show v ≤ r.max; omega)

/-- C19: `Range.Release(id)` in every range state (reachable or not). If
`id < base` or `id > max` the range is unchanged; if `id` is in `[base, max]` then
afterwards `Has(id)` is false and `Has` of every other id is what it was.
Releasing an id that is already free changes nothing, and `Release(id)` twice
gives the same range as `Release(id)` once. -/
theorem Range_Release_frame (r : Range) (id : Int) :
    ((id < r.base ∨ id > r.max) → r.Release id = r) ∧
    (r.base ≤ id → id ≤ r.max →
      (r.Release id).Has id = false ∧
      ∀ other, other ≠ id → (r.Release id).Has other = r.Has other) ∧
    (r.Has id = false → r.Release id = r) ∧
    (r.Release id).Release id = r.Release id := by
  by_cases hout : id < r.base ∨ id > r.max
  · have e := Range.Release_out r id hout
    refine ⟨fun _ => e, fun h1 h2 => by omega, fun _ => e, ?_⟩
    rw [e, e]
  · have h1 : r.base ≤ id := by omega
    have h2 : id ≤ r.max := by omega
    by_cases h3 : r.alloc.size ≤ id - r.base
    · have e := Range.Release_beyond r id h1 h2 h3
      have hlen : r.alloc.bits.length ≤ (id - r.base).toNat := by
        unfold AllocationBitmap.size at h3
        omega
      refine ⟨fun _ => e, fun _ _ => ?_, fun _ => e, ?_⟩
      · rw [e]
        refine ⟨?_, fun _ _ => rfl⟩
        rw [Range.Has_in r id h1 h2, List.getD_eq_default _ _ hlen]
      · rw [e, e]
    · have h3' : id - r.base < r.alloc.size := by omega
      have e := Range.Release_in r id h1 h2 h3'
      have hlen : (id - r.base).toNat < r.alloc.bits.length := by
        unfold AllocationBitmap.size at h3'
        omega
      refine ⟨fun h => absurd h hout, fun _ _ => ?_, fun hfree => ?_, ?_⟩
      · rw [e]
        constructor
        · rw [Range.Has_after_set, if_neg hout]
          exact getD_set_self _ _ _ hlen
        · intro other hne
          rw [Range.Has_after_set]
          by_cases ho : other < r.base ∨ other > r.max
          · rw [if_pos ho, Range.Has_out r other ho]
          · have o1 : r.base ≤ other := by omega
            have o2 : other ≤ r.max := by omega
            rw [if_neg ho, Range.Has_in r other o1 o2]
            have hoff : (id - r.base).toNat ≠ (other - r.base).toNat := by omega
            exact getD_set_ne _ _ _ _ hoff
      · rw [e]
        rw [Range.Has_in r id h1 h2] at hfree
        rw [set_false_same _ _ hfree]
      · rw [e]
        have h3r : id - r.base <
            ({ r with alloc := { bits := r.alloc.bits.set (id - r.base).toNat false } } :
              Range).alloc.size := by
          show id - r.base < ((r.alloc.bits.set (id - r.base).toNat false).length : Int)
          rw [List.length_set]
          exact h3'
        rw [Range.Release_in
          ({ r with alloc := { bits := r.alloc.bits.set (id - r.base).toNat false } } : Range)
          id h1 h2 h3r]
        show ({ base := r.base, max := r.max, alloc := { bits :=
          (r.alloc.bits.set (id - r.base).toNat false).set (id - r.base).toNat false } } : Range)
          = _
        rw [List.set_set]

theorem usedOffsets_mem (l : List Bool) (start : Nat) (x : Int) :
    x ∈ usedOffsets l start ↔
      ∃ j : Nat, j < l.length ∧ l.getD j false = true ∧ x = (start : Int) + (j : Int) := by
  induction l generalizing start with
  | nil => simp [usedOffsets]
  | cons b rest ih =>
    have hrest : x ∈ usedOffsets rest (start + 1) ↔
        ∃ j : Nat, 0 < j ∧ j < (b :: rest).length ∧ (b :: rest).getD j false = true ∧
          x = (start : Int) + (j : Int) := by
      rw [ih (start + 1)]
      constructor
      · rintro ⟨j, h1, h2, h3⟩
        exact ⟨j + 1, by omega, by simpa using h1, by simpa using h2, by push_cast at h3 ⊢; omega⟩
      · rintro ⟨j, h0, h1, h2, h3⟩
        obtain ⟨k, rfl⟩ : ∃ k, j = k + 1 := ⟨j - 1, by omega⟩
        exact ⟨k, by simpa using h1, by simpa using h2, by push_cast at h3 ⊢; omega⟩
    cases b with
    | false =>
      simp only [usedOffsets, Bool.false_eq_true, if_false]
      rw [hrest]
      constructor
      · rintro ⟨j, _, h1, h2, h3⟩; exact ⟨j, h1, h2, h3⟩
      · rintro ⟨j, h1, h2, h3⟩
        refine ⟨j, ?_, h1, h2, h3⟩
        cases j with
        | zero => simp at h2
        | succ k => omega
    | true =>
      simp only [usedOffsets, if_true, List.mem_cons]
      rw [hrest]
      constructor
      · rintro (h | ⟨j, _, h1, h2, h3⟩)
        · exact ⟨0, by simp, by simp, by simpa using h⟩
        · exact ⟨j, h1, h2, h3⟩
      · rintro ⟨j, h1, h2, h3⟩
        cases j with
        | zero => left; simpa using h3
        | succ k => right; exact ⟨k + 1, by omega, h1, h2, h3⟩

theorem usedOffsets_ascending (l : List Bool) (start : Nat) :
    (usedOffsets l start).Pairwise (fun a b => a < b) := by
  induction l generalizing start with
  | nil => simp [usedOffsets]
  | cons b rest ih =>
    cases b with
    | false =>
      simp only [usedOffsets, Bool.false_eq_true, if_false]
      exact ih (start + 1)
    | true =>
      simp only [usedOffsets, if_true, List.pairwise_cons]
      refine ⟨?_, ih (start + 1)⟩
      intro x hx
      obtain ⟨j, _, _, h3⟩ := (usedOffsets_mem rest (start + 1) x).1 hx
      push_cast at h3
      omega

theorem foldl_record (f : Int → Int) (l : List Int) (acc : List Int) :
    l.foldl (fun acc o => acc ++ [f o]) acc = acc ++ l.map f := by
  induction l generalizing acc with
  | nil => simp
  | cons a rest ih => simp [ih]

theorem Range.calls_eq (r : Range) :
    r.calls = (usedOffsets r.alloc.bits 0).map (fun o => r.base + o) := by
  unfold Range.calls Range.ForEach AllocationBitmap.ForEach
  rw [foldl_record (fun o => r.base + o)]
  rfl

theorem Range.ForEach_eq_foldl_calls {σ : Type} (r : Range) (fn : Int → σ → σ) (s : σ) :
    r.ForEach fn s = r.calls.foldl (fun acc vni => fn vni acc) s := by
  rw [Range.calls_eq]
  unfold Range.ForEach AllocationBitmap.ForEach
  rw [List.foldl_map]

theorem Range.step_shape (r : Range) (op : RangeOp) :
    (r.step op).base = r.base ∧ (r.step op).max = r.max ∧
      (r.step op).alloc.bits.length = r.alloc.bits.length := by
  cases op with
  | allocate vni =>
    show (r.Allocate vni).1.base = _ ∧ (r.Allocate vni).1.max = _ ∧
      (r.Allocate vni).1.alloc.bits.length = _
    by_cases h : vni < r.base ∨ vni > r.max
    · rw [Range.Allocate_notInRange r vni h]
      exact ⟨rfl, rfl, rfl⟩
    · have h1 : r.base ≤ vni := by omega
      have h2 : vni ≤ r.max := by omega
      by_cases h3 : r.alloc.size ≤ vni - r.base
      · rw [Range.Allocate_outOfBounds r vni h1 h2 h3]
        exact ⟨rfl, rfl, rfl⟩
      · have h3' : vni - r.base < r.alloc.size := by omega
        cases hh : r.Has vni with
        | true =>
          rw [Range.Allocate_used r vni hh h3']
          exact ⟨rfl, rfl, rfl⟩
        | false =>
          rw [Range.Allocate_free r vni h1 h2 h3' hh]
          exact ⟨rfl, rfl, List.length_set _ _ _⟩
  | allocateNext =>
    show r.AllocateNext.1.base = _ ∧ r.AllocateNext.1.max = _ ∧
      r.AllocateNext.1.alloc.bits.length = _
    cases hf : firstFree r.alloc.bits with
    | none =>
      rw [Range.AllocateNext_none r hf]
      exact ⟨rfl, rfl, rfl⟩
    | some o =>
      rw [Range.AllocateNext_some r o hf]
      exact ⟨rfl, rfl, List.length_set _ _ _⟩
  | release vni =>
    show (r.Release vni).base = _ ∧ (r.Release vni).max = _ ∧
      (r.Release vni).alloc.bits.length = _
    by_cases h : vni < r.base ∨ vni > r.max
    · rw [Range.Release_out r vni h]
      exact ⟨rfl, rfl, rfl⟩
    · have h1 : r.base ≤ vni := by omega
      have h2 : vni ≤ r.max := by omega
      by_cases h3 : r.alloc.size ≤ vni - r.base
      · rw [Range.Release_beyond r vni h1 h2 h3]
        exact ⟨rfl, rfl, rfl⟩
      · rw [Range.Release_in r vni h1 h2 (by omega)]
        exact ⟨rfl, rfl, List.length_set _ _ _⟩

theorem Range.run_shape (ops : List RangeOp) (r : Range) :
    (r.run ops).base = r.base ∧ (r.run ops).max = r.max ∧
      (r.run ops).alloc.bits.length = r.alloc.bits.length := by
  induction ops generalizing r with
  | nil => exact ⟨rfl, rfl, rfl⟩
  | cons op rest ih =>
    obtain ⟨a1, a2, a3⟩ := ih (r.step op)
    obtain ⟨b1, b2, b3⟩ := Range.step_shape r op
    exact ⟨a1.trans b1, a2.trans b2, a3.trans b3⟩

theorem RangeReachable_shape (base max : Int) (r : Range) (h : RangeReachable base max r) :
    r.base = base ∧ r.max = max ∧ r.alloc.size = maximum 0 (max - base) := by
  obtain ⟨r0, ops, h0, hrun⟩ := h
  unfold NewRange NewAllocatorRange at h0
  simp only [Prod.mk.injEq, and_true] at h0
  obtain ⟨a1, a2, a3⟩ := Range.run_shape ops r0
  rw [← hrun]
  unfold AllocationBitmap.size
  rw [a1, a2, a3, ← h0]
  exact ⟨rfl, rfl, size_toNat_maximum base max⟩

/-- C20: in every range state reachable from `NewRange(base, max)`,
`Range.ForEach(fn)` calls `fn` on the values of `calls` and on nothing else, in
that order, whatever the callback; these values are strictly ascending, a value
is among them exactly when `Has` is true for it, every allocated id occurs
exactly once, and every value passed is an absolute id `base + offset` of
`[base, max]`. -/
theorem ForEach_enumerates_allocated (base max : Int) (r : Range)
    (hr : RangeReachable base max r) :
    (∀ (σ : Type) (fn : Int → σ → σ) (s : σ),
      r.ForEach fn s = r.calls.foldl (fun acc vni => fn vni acc) s) ∧
    r.calls.Pairwise (fun a b => a < b) ∧
    (∀ v, v ∈ r.calls ↔ r.Has v = true) ∧
    (∀ v, r.Has v = true → r.calls.count v = 1) ∧
    (∀ v, v ∈ r.calls → base ≤ v ∧ v ≤ max ∧ ∃ offset : Nat, v = base + (offset : Int)) := by
  obtain ⟨hb, hm, hs⟩ := RangeReachable_shape base max r hr
  have hsorted : r.calls.Pairwise (fun a b => a < b) := by
    rw [Range.calls_eq]
    exact (usedOffsets_ascending r.alloc.bits 0).map (fun o => r.base + o)
      (fun a b hab => by show r.base + a < r.base + b; omega)
  have hmem : ∀ v, v ∈ r.calls ↔
      ∃ j : Nat, j < r.alloc.bits.length ∧ r.alloc.bits.getD j false = true ∧
        v = r.base + (j : Int) := by
    intro v
    rw [Range.calls_eq, List.mem_map]
    constructor
    · rintro ⟨o, ho, rfl⟩
      obtain ⟨j, h1, h2, h3⟩ := (usedOffsets_mem _ _ _).1 ho
      exact ⟨j, h1, h2, by rw [h3]; push_cast; omega⟩
    · rintro ⟨j, h1, h2, rfl⟩
      exact ⟨(j : Int), (usedOffsets_mem _ _ _).2 ⟨j, h1, h2, by push_cast; omega⟩, rfl⟩
  have hlen : ∀ j : Nat, j < r.alloc.bits.length → r.base + (j : Int) < r.max := by
    intro j hj
    unfold AllocationBitmap.size maximum at hs
    rw [hb, hm]
    split at hs <;> omega
  have hiff : ∀ v, v ∈ r.calls ↔ r.Has v = true := by
    intro v
    rw [hmem, Range.Has_iff]
    constructor
    · rintro ⟨j, h1, h2, rfl⟩
      have := hlen j h1
      refine ⟨by omega, by omega, ?_⟩
      have e : (r.base + (j : Int) - r.base).toNat = j := by
        rw [add_sub_cancel_left]; exact Int.toNat_natCast j
      rw [e]; exact h2
    · rintro ⟨h1, h2, h3⟩
      refine ⟨(v - r.base).toNat, ?_, h3, ?_⟩
      · by_contra hc
        rw [List.getD_eq_default _ _ (by omega)] at h3
        exact absurd h3 (by decide)
      · rw [Int.toNat_of_nonneg (by omega)]; omega
  refine ⟨fun σ fn s => Range.ForEach_eq_foldl_calls r fn s, hsorted, hiff, ?_, ?_⟩
  · intro v hv
    have hnodup : r.calls.Nodup := hsorted.imp (fun hab => ne_of_lt hab)
    exact List.count_eq_one_of_mem hnodup ((hiff v).2 hv)
  · intro v hv
    obtain ⟨j, h1, _, rfl⟩ := (hmem v).1 hv
    have := hlen j h1
    rw [← hb, ← hm]
    exact ⟨by omega, by omega, j, rfl⟩

/-- Instance of C20 at the range over `(0, 10)` after `AllocateNext()`,
`Allocate(5)`, `Allocate(3)`, `Release(0)` and `Allocate(9)`: the callback is
called on `3`, `5`, `9`. -/
theorem ForEach_enumerates_allocated_witness :
    RangeReachable 0 10 range_0_10_used ∧ range_0_10_used.calls = [3, 5, 9] ∧
      range_0_10_used.calls.Pairwise (fun a b => a < b) ∧
      (5 ∈ range_0_10_used.calls ↔ range_0_10_used.Has 5 = true) :=
  have hr : RangeReachable 0 10 range_0_10_used := ⟨range_0_10, _, range_0_10_eq, rfl⟩
  have h := ForEach_enumerates_allocated 0 10 range_0_10_used hr
  ⟨hr, by decide, h.2.1, h.2.2.1 5⟩

/-! ## Table and bitmap stay consistent -/

theorem cacheGet_none_iff (c : List (String × Int)) (n : String) :
    cacheGet c n = none ↔ n ∉ c.map Prod.fst := by
  induction c with
  | nil => simp [cacheGet]
  | cons e rest ih =>
    obtain ⟨k, v⟩ := e
    by_cases h : k = n
    · simp [cacheGet, h]
    · have h' : ¬ n = k := fun e => h e.symm
      simp [cacheGet, h, h', ih]

theorem nodup_cacheDelete (c : List (String × Int)) (n : String)
    (h : (c.map Prod.fst).Nodup) : ((cacheDelete c n).map Prod.fst).Nodup :=
  h.sublist ((List.filter_sublist c).map Prod.fst)

theorem length_cacheDelete_bound (c : List (String × Int)) (n : String) (v : Int)
    (hnd : (c.map Prod.fst).Nodup) (h : cacheGet c n = some v) :
    (cacheDelete c n).length + 1 = c.length := by
  induction c with
  | nil => simp [cacheGet] at h
  | cons e rest ih =>
    obtain ⟨k, w⟩ := e
    simp only [List.map_cons, List.nodup_cons] at hnd
    by_cases hk : k = n
    · have h1 : cacheDelete ((k, w) :: rest) n = cacheDelete rest n := by
        simp [cacheDelete, List.filter_cons, hk]
      have h2 : cacheGet rest n = none := by
        rw [cacheGet_none_iff, ← hk]; exact hnd.1
      rw [h1, cacheDelete_of_none rest n h2]
      rfl
    · have h1 : cacheDelete ((k, w) :: rest) n = (k, w) :: cacheDelete rest n := by
        simp [cacheDelete, List.filter_cons, hk]
      simp only [cacheGet, hk, if_false] at h
      rw [h1]
      simp only [List.length_cons]
      rw [ih hnd.2 h]

theorem count_true_set_true (l : List Bool) (o : Nat) (ho : o < l.length)
    (hb : l.getD o false = false) :
    (l.set o true).count true = l.count true + 1 := by
  have h1 := count_set_true l o ho hb
  have h2 := List.count_true_add_count_false l
  have h3 := List.count_true_add_count_false (l.set o true)
  rw [List.length_set] at h3
  omega

theorem count_true_set_false (l : List Bool) (o : Nat) (ho : o < l.length)
    (hb : l.getD o false = true) :
    (l.set o false).count true + 1 = l.count true := by
  have h1 := count_set_false l o ho hb
  have h2 := List.count_true_add_count_false l
  have h3 := List.count_true_add_count_false (l.set o false)
  rw [List.length_set] at h3
  omega

theorem Consistent_bindAt (m : RangeManager) (name : String) (o : Nat)
    (hc : Consistent m) (hn : cacheGet m.cache name = none)
    (ho : o < m.alloc.alloc.bits.length)
    (hfree : m.alloc.alloc.bits.getD o false = false) :
    Consistent (bindAt m name o) := by
  obtain ⟨hnd, hconv, hlen⟩ := hc
  have hdel : cacheDelete m.cache name = m.cache := cacheDelete_of_none m.cache name hn
  have hcache : (bindAt m name o).cache = (name, m.alloc.base + (o : Int)) :: m.cache := by
    show (name, m.alloc.base + (o : Int)) :: cacheDelete m.cache name = _
    rw [hdel]
  refine ⟨?_, ?_, ?_⟩
  · rw [hcache]
    simp only [List.map_cons, List.nodup_cons]
    exact ⟨(cacheGet_none_iff m.cache name).1 hn, hnd⟩
  · intro id hid
    by_cases e : id = m.alloc.base + (o : Int)
    · exact ⟨name, by rw [e]; exact cacheGet_cacheSet_self _ _ _⟩
    · have hold : m.alloc.Has id = true := by
        have h' : (bindAt m name o).alloc.Has id =
            if id < m.alloc.base ∨ id > m.alloc.max then false
            else (m.alloc.alloc.bits.set o true).getD (id - m.alloc.base).toNat false :=
          Range.Has_after_set m.alloc o true id
        rw [h'] at hid
        by_cases hout : id < m.alloc.base ∨ id > m.alloc.max
        · rw [if_pos hout] at hid; exact absurd hid (by decide)
        · rw [if_neg hout] at hid
          have hne : o ≠ (id - m.alloc.base).toNat := by omega
          rw [getD_set_ne _ _ _ _ hne] at hid
          rw [Range.Has_in m.alloc id (by omega) (by omega)]
          exact hid
      obtain ⟨n, hn'⟩ := hconv id hold
      have hne : n ≠ name := by
        intro e'; rw [e', hn] at hn'; exact absurd hn' (by simp)
      exact ⟨n, by
        show cacheGet (cacheSet m.cache name _) n = some id
        rw [cacheGet_cacheSet_ne _ _ _ _ hne]; exact hn'⟩
  · rw [hcache]
    show m.cache.length + 1 = (m.alloc.alloc.bits.set o true).count true
    rw [count_true_set_true _ _ ho hfree, hlen]

theorem Consistent_Release (base max : Int) (m : RangeManager) (name : String)
    (hinv : Inv base max m) (hc : Consistent m) : Consistent (m.Release name) := by
  cases hb : cacheGet m.cache name with
  | none => rw [Release_unbound m name hb]; exact hc
  | some id0 =>
    obtain ⟨h1, h2, h3, h4⟩ := bound_in_range base max m hinv name id0 hb
    have hlen0 : (id0 - m.alloc.base).toNat < m.alloc.alloc.bits.length := by
      unfold AllocationBitmap.size at h3
      omega
    rw [Release_bound base max m hinv name id0 hb]
    obtain ⟨hnd, hconv, hlen⟩ := hc
    refine ⟨nodup_cacheDelete _ _ hnd, ?_, ?_⟩
    · intro id hid
      have h' := Range.Has_after_set m.alloc (id0 - m.alloc.base).toNat false id
      rw [h'] at hid
      by_cases hout : id < m.alloc.base ∨ id > m.alloc.max
      · rw [if_pos hout] at hid; exact absurd hid (by decide)
      · rw [if_neg hout] at hid
        have hne : id ≠ id0 := by
          intro e
          rw [e, getD_set_self _ _ _ hlen0] at hid
          exact absurd hid (by decide)
        have hoff : (id0 - m.alloc.base).toNat ≠ (id - m.alloc.base).toNat := by omega
        rw [getD_set_ne _ _ _ _ hoff] at hid
        have hold : m.alloc.Has id = true := by
          rw [Range.Has_in m.alloc id (by omega) (by omega)]; exact hid
        obtain ⟨n, hn'⟩ := hconv id hold
        have hnn : n ≠ name := by
          intro e'
          rw [e', hb] at hn'
          exact hne (Option.some.inj hn').symm
        exact ⟨n, by
          show cacheGet (cacheDelete m.cache name) n = some id
          rw [cacheGet_cacheDelete_ne _ _ _ hnn]; exact hn'⟩
    · show (cacheDelete m.cache name).length =
        (m.alloc.alloc.bits.set (id0 - m.alloc.base).toNat false).count true
      have a := length_cacheDelete_bound m.cache name id0 hnd hb
      have b := count_true_set_false _ _ hlen0 h4
      omega

theorem Consistent_step (base max : Int) (m : RangeManager) (op : Op)
    (hinv : Inv base max m) (hc : Consistent m) : Consistent (step m op) := by
  cases op with
  | allocate name =>
    show Consistent (m.Allocate name).1
    rcases Allocate_cases m name with ⟨v, _, h⟩ | ⟨_, _, h⟩ | ⟨o, hn, hf, h⟩
    · rw [h]; exact hc
    · rw [h]; exact hc
    · rw [h]
      obtain ⟨h1, h2, _⟩ := firstFree_some _ _ hf
      exact Consistent_bindAt m name o hc hn h1 h2
  | release name => exact Consistent_Release base max m name hinv hc
  | reserve name vni =>
    show Consistent (m.Reserve name vni).1
    rcases Reserve_cases m name vni with ⟨v, _, h⟩ | ⟨e, _, _, h⟩ | ⟨hn, h1, h2, h3, hh, h⟩
    · rw [h]; exact hc
    · rw [h]; exact hc
    · rw [h]
      have hlen : (vni - m.alloc.base).toNat < m.alloc.alloc.bits.length := by
        unfold AllocationBitmap.size at h3
        omega
      have hfree : m.alloc.alloc.bits.getD (vni - m.alloc.base).toNat false = false := by
        rw [Range.Has_in m.alloc vni h1 h2] at hh
        exact hh
      exact Consistent_bindAt m name _ hc hn hlen hfree

theorem Consistent_run (base max : Int) (ops : List Op) (m : RangeManager)
    (hinv : Inv base max m) (hc : Consistent m) : Consistent (run m ops) := by
  induction ops generalizing m with
  | nil => exact hc
  | cons op rest ih =>
    exact ih (step m op) (Inv_step base max m op hinv) (Consistent_step base max m op hinv hc)

theorem Consistent_of_Reachable (base max : Int) (m : RangeManager)
    (h : Reachable base max m) : Consistent m := by
  obtain ⟨m0, ops, h0, hrun⟩ := h
  have hinv0 := Inv_init base max m0 h0
  rw [← hrun]
  refine Consistent_run base max ops m0 hinv0 ?_
  unfold NewRangeManager NewRange NewAllocatorRange at h0
  simp only [Except.ok.injEq] at h0
  subst h0
  refine ⟨by simp, ?_, ?_⟩
  · intro id hid
    rw [Range.Has_iff] at hid
    have hb := hid.2.2
    simp only [NewContiguousAllocationMap] at hb
    rw [List.getD_eq_getElem?_getD] at hb
    by_cases hlt : (id - base).toNat < (List.replicate (maximum 0 (max - base)).toNat false).length
    · rw [List.getElem?_eq_getElem hlt] at hb
      simp at hb
    · rw [List.getElem?_eq_none (by omega)] at hb
      simp at hb
  · show 0 = (List.replicate (maximum 0 (max - base)).toNat false).count true
    simp [List.count_replicate]

theorem countP_getD_range (l : List Bool) (n : Nat) (h : l.length ≤ n) :
    (List.range n).countP (fun i => l.getD i false) = l.count true := by
  induction l generalizing n with
  | nil =>
    have : ∀ i ∈ List.range n, ¬ (([] : List Bool).getD i false = true) := by
      intro i _; simp
    rw [List.countP_eq_zero.2 this]
    rfl
  | cons b rest ih =>
    obtain ⟨k, rfl⟩ : ∃ k, n = k + 1 := ⟨n - 1, by simp at h; omega⟩
    have hk : rest.length ≤ k := by simp at h; omega
    rw [List.range_succ_eq_map, List.countP_cons, List.countP_map]
    have e : ((fun i => (b :: rest).getD i false) ∘ Nat.succ) = fun i => rest.getD i false := by
      funext i; simp
    rw [e, ih k hk]
    cases b <;> simp [List.count_cons]

theorem allocatedCount_unfold (r : Range) :
    r.allocatedCount =
      (List.range (r.max - r.base + 1).toNat).countP
        (fun i : Nat => r.Has (r.base + (i : Int))) := by
  unfold Range.allocatedCount
  rw [← List.countP_eq_length_filter]
  simp only [List.bind_eq_flatMap, List.pure_def]
  rw [← List.map_eq_flatMap (fun a : Nat => (a : Int)), List.countP_map]
  rfl

theorem allocatedCount_eq_count (base max : Int) (m : RangeManager) (hinv : Inv base max m) :
    m.alloc.allocatedCount = m.alloc.alloc.bits.count true := by
  obtain ⟨hb, hm, hs, _, _⟩ := hinv
  rw [allocatedCount_unfold]
  have hle : m.alloc.alloc.bits.length ≤ (m.alloc.max - m.alloc.base + 1).toNat := by
    unfold AllocationBitmap.size maximum at hs
    rw [hb, hm]
    split at hs <;> omega
  rw [← countP_getD_range m.alloc.alloc.bits _ hle]
  apply List.countP_congr
  intro i hi
  rw [List.mem_range] at hi
  have e : (m.alloc.base + (i : Int) - m.alloc.base).toNat = i := by
    rw [add_sub_cancel_left]; exact Int.toNat_natCast i
  rw [Range.Has_in m.alloc _ (by omega) (by omega), e]

/-- C23: in every manager state reachable from `NewRangeManager(base, max)` by
`Allocate`, `Release` and `Reserve` calls, every id in the binding table lies in
`[base, max]` and is allocated in the range (`Has(id)` is true); conversely every
allocated id of the range is bound to some name; no name occurs twice in the
table, and the number of bindings equals the number of ids of `[base, max]`
that are allocated. -/
theorem table_and_bitmap_consistent (base max : Int) (m : RangeManager)
    (hr : Reachable base max m) :
    (∀ n id, cacheGet m.cache n = some id →
      base ≤ id ∧ id ≤ max ∧ m.alloc.Has id = true) ∧
    (∀ id, m.alloc.Has id = true → ∃ n, cacheGet m.cache n = some id) ∧
    (m.cache.map Prod.fst).Nodup ∧
    m.cache.length = m.alloc.allocatedCount := by
  have hinv := Inv_of_Reachable base max m hr
  obtain ⟨hnd, hconv, hlen⟩ := Consistent_of_Reachable base max m hr
  refine ⟨?_, hconv, hnd, ?_⟩
  · intro n id hn
    obtain ⟨h1, h2, _, _⟩ := bound_in_range base max m hinv n id hn
    rw [hinv.1] at h1
    rw [hinv.2.1] at h2
    exact ⟨h1, h2, hinv.2.2.2.1 n id hn⟩
  · rw [allocatedCount_eq_count base max m hinv]
    exact hlen

/-- Instance of C23 at the manager over `(0, 10)` after `Allocate("a")` and
`Allocate("b")`: two bindings, two allocated ids. -/
theorem table_and_bitmap_consistent_witness :
    Reachable 0 10 after_a_b ∧ after_a_b.cache.length = 2 ∧
      after_a_b.cache.length = after_a_b.alloc.allocatedCount :=
  ⟨reachable_after_a_b, by decide,
    (table_and_bitmap_consistent 0 10 after_a_b reachable_after_a_b).2.2.2⟩

/-! ## Frame: calls on one name leave the other names alone -/

theorem step_other_binding (m : RangeManager) (op : Op) (other : String)
    (hne : other ≠ op.name) :
    cacheGet (step m op).cache other = cacheGet m.cache other := by
  cases op with
  | allocate n =>
    have hne' : other ≠ n := hne
    show cacheGet (m.Allocate n).1.cache other = _
    rcases Allocate_cases m n with ⟨v, _, h⟩ | ⟨_, _, h⟩ | ⟨o, _, _, h⟩
    · rw [h]
    · rw [h]
    · rw [h]
      exact cacheGet_cacheSet_ne _ _ _ _ hne'
  | release n =>
    have hne' : other ≠ n := hne
    show cacheGet (m.Release n).cache other = _
    unfold RangeManager.Release
    cases hc : cacheGet m.cache n with
    | none => rfl
    | some v => exact cacheGet_cacheDelete_ne _ _ _ hne'
  | reserve n vni =>
    have hne' : other ≠ n := hne
    show cacheGet (m.Reserve n vni).1.cache other = _
    rcases Reserve_cases m n vni with ⟨v, _, h⟩ | ⟨e, _, _, h⟩ | ⟨_, _, _, _, _, h⟩
    · rw [h]
    · rw [h]
    · rw [h]
      exact cacheGet_cacheSet_ne _ _ _ _ hne'

/-- C24: operations on one name do not disturb other names. In every reachable
manager state, for every call `op` that is `Allocate(n)`, `Release(n)` or
`Reserve(n, id)` (any `id`, whether the call succeeds or fails) and every name
`other` different from `n`, the binding of `other` after the call is exactly what
it was before (still unbound, or still bound to the same id), and if `other` is
bound its id is still allocated in the range after the call. -/
theorem other_names_undisturbed (base max : Int) (m : RangeManager)
    (hr : Reachable base max m) (op : Op) (other : String) (hne : other ≠ op.name) :
    cacheGet (step m op).cache other = cacheGet m.cache other ∧
      ∀ v, cacheGet m.cache other = some v → (step m op).alloc.Has v = true := by
  have hb := step_other_binding m op other hne
  refine ⟨hb, ?_⟩
  intro v hv
  have hinv := Inv_step base max m op (Inv_of_Reachable base max m hr)
  exact hinv.2.2.2.1 other v (by rw [hb]; exact hv)

/-- Instance of C24: over `(0, 10)` with `"a"` bound to `0` and `"b"` to `1`,
`Release("a")` leaves `"b"` bound to `1` and the id `1` allocated. -/
theorem other_names_undisturbed_witness :
    Reachable 0 10 after_a_b ∧ "b" ≠ (Op.release "a").name ∧
      cacheGet (step after_a_b (Op.release "a")).cache "b" = some 1 ∧
      (step after_a_b (Op.release "a")).alloc.Has 1 = true :=
  have h := other_names_undisturbed 0 10 after_a_b reachable_after_a_b (Op.release "a") "b"
    (by decide)
  ⟨reachable_after_a_b, by decide, h.1.trans (by decide), h.2 1 (by decide)⟩

/-! ## The Deployment -/

/-- C22 (the code at the failing input): for a Frr resource whose spec has
`ASNumber = 65000`, `newDeployment(frr, 64512, 100)` gives both the init
container and the frr container the environment value `ASNUMBER = "65000"`, the
rendering of the spec field, not `"64512"`, the rendering of the allocated asn
passed in; `VNI` is `"100"`, the rendering of the allocated vni. -/
theorem newDeployment_ignores_allocated_asn :
    (newDeployment frr_example 64512 100).envs.map (fun env => envValue env "ASNUMBER") =
        [some "65000", some "65000"] ∧
      sprintfD 64512 = "64512" ∧
      (newDeployment frr_example 64512 100).envs.map (fun env => envValue env "VNI") =
        [some "100", some "100"] :=
  ⟨by decide, by decide, by decide⟩

end FrrController
